import Mathlib

/-!
# qrtz/which: the directory walk and the result accumulator

A shallow embedding of `main.go`.

* Strings, `+` on strings and `len` are Lean's `String`, `++` and `String.length`.
* Go maps are finite maps without any order: `map[string]struct{}` is a
  `Finset String`, `map[string]map[string]struct{}` is a `Finmap`.
* The operating system is a record of functions (`FileSystem`), the functions
  of `path/filepath` and `strings` are a record too (`PathLib`): every theorem
  holds for all of them.
* `walk` loops until its stack is empty.  The loop is given a fuel (one unit
  per popped frame); running out of fuel is the outcome `Outcome.outOfFuel`,
  never a return value of `walk`.
-/

namespace Which

/-! ## Values of the Go runtime -/

/-- Go `error` values.  The program distinguishes `filepath.SkipDir` and its own
`errFound`; every other error comes from the operating system. -/
inductive GoError where
  | SkipDir
  | errFound
  | os (msg : String)
  deriving DecidableEq

/-- What the program reads of an `os.FileInfo`: `Name()` and `IsDir()`. -/
structure OsFileInfo where
  name : String
  isDir : Bool
  deriving DecidableEq

/-- Result pair `(os.FileInfo, error)` of `os.Stat` and `os.Lstat`: exactly one of
the two is non-nil. -/
inductive StatResult where
  | ok (info : OsFileInfo)
  | error (err : GoError)
  deriving DecidableEq

/-- The stat succeeded and its metadata is a directory (the negation of the test
`err != nil || !info.IsDir()`). -/
def StatResult.isDir : StatResult → Bool
  | StatResult.ok info => info.isDir
  | StatResult.error _ => false

/-- Filesystem primitives used by the program. `osOpen` is `os.Open` (`none`: the
file was opened). `readdirAll` is `(*os.File).Readdir(-1)`: the entries that were
read, and the error met before the end of the directory, if any ("If it encounters
an error before the end of the directory, Readdir returns the FileInfo read until
that point and a non-nil error"). -/
structure FileSystem where
  stat : String → StatResult
  lstat : String → StatResult
  osOpen : String → Option GoError
  readdirAll : String → List OsFileInfo × Option GoError

/-- Library functions the program calls: `filepath.Join` (of two elements),
`filepath.Ext`, `filepath.Base`, `strings.ToLower`, `strings.Split` by the
one-character string `sp`. -/
structure PathLib where
  join : String → String → String
  ext : String → String
  base : String → String
  toLower : String → String
  splitList : String → List String

/-! ## The traversal engine (`main.go`, lines 174-228) -/

/-- The struct `FileInfo` of the source: a path and the embedded `os.FileInfo`. -/
structure FileInfo where
  Path : String
  info : OsFileInfo
  deriving DecidableEq

/-- Go `filepath.WalkFunc`, with the state the closure reads and writes passed
explicitly. The arguments `info` and `err` are passed together as a `StatResult`:
`walk` only ever passes `(info, nil)` or the pair returned by `os.Lstat`. The
returned `Option GoError` is the returned `error` (`none` is `nil`). -/
abbrev WalkFunc (σ : Type) := σ → String → StatResult → Option GoError × σ

/-- Source `readdir` (lines 179-189): `os.Open`, then `f.Readdir(-1)`. -/
def readdir (fs : FileSystem) (path : String) : List OsFileInfo × Option GoError :=
  match fs.osOpen path with
  | some err => ([], some err)
  | none => fs.readdirAll path

/-- How a run of `walk` ends: it returned an `error` value (`none` is `nil`), or the
model ran out of fuel before the loop ended. -/
inductive Outcome where
  | returned (err : Option GoError)
  | outOfFuel
  deriving DecidableEq

/-- The inner loop of `walk` (lines 216-224) over the entries `infos` of the
directory `current`. The head of `stack` is the top of the stack (the last element
of the Go slice). Returns `some err` when the loop left `walk` by `return err`. -/
def walkChildren {σ : Type} (lib : PathLib) (walkFn : WalkFunc σ) (current : FileInfo) :
    List OsFileInfo → List FileInfo → σ → Option GoError × List FileInfo × σ
  | [], stack, s => (none, stack, s)
  | info :: infos, stack, s =>
    let sub := lib.join current.Path info.name
    if info.isDir then
      walkChildren lib walkFn current infos (⟨sub, info⟩ :: stack) s
    else
      match walkFn s sub (StatResult.ok info) with
      | (some err, s1) =>
        if err ≠ GoError.SkipDir then (some err, stack, s1)
        else walkChildren lib walkFn current infos stack s1
      | (none, s1) => walkChildren lib walkFn current infos stack s1

/-- The outer loop of `walk` (lines 204-225): one unit of fuel per popped frame. -/
def walkLoop {σ : Type} (fs : FileSystem) (lib : PathLib) (walkFn : WalkFunc σ) :
    Nat → List FileInfo → σ → Outcome × σ
  | _, [], s => (Outcome.returned none, s)
  | 0, _ :: _, s => (Outcome.outOfFuel, s)
  | fuel + 1, current :: stack, s =>
    match walkFn s current.Path (StatResult.ok current.info) with
    | (some err, s1) =>
      if err ≠ GoError.SkipDir then (Outcome.returned (some err), s1)
      else walkLoop fs lib walkFn fuel stack s1
    | (none, s1) =>
      match walkChildren lib walkFn current (readdir fs current.Path).1 stack s1 with
      | (some err, _, s2) => (Outcome.returned (some err), s2)
      | (none, stack2, s2) => walkLoop fs lib walkFn fuel stack2 s2

/-- Source `walk` (lines 191-228). -/
def walk {σ : Type} (fs : FileSystem) (lib : PathLib) (fuel : Nat) (path : String)
    (walkFn : WalkFunc σ) (s : σ) : Outcome × σ :=
  match fs.lstat path with
  | StatResult.error err =>
    let r := walkFn s path (StatResult.error err)
    (Outcome.returned r.1, r.2)
  | StatResult.ok info =>
    if !info.isDir then
      let r := walkFn s path (StatResult.ok info)
      (Outcome.returned r.1, r.2)
    else walkLoop fs lib walkFn fuel [⟨path, info⟩] s

/-! ### Observing the calls of the visitor -/

/-- One call of the visitor: its arguments and the value it returned. -/
structure Call where
  path : String
  arg : StatResult
  result : Option GoError
  deriving DecidableEq

/-- The visitor `walkFn`, with every call appended to a log. -/
def traced {σ : Type} (walkFn : WalkFunc σ) : WalkFunc (σ × List Call) :=
  fun st path arg =>
    let r := walkFn st.1 path arg
    (r.1, (r.2, st.2 ++ [⟨path, arg, r.1⟩]))

/-- A call that aborts the walk: it returned an error other than `filepath.SkipDir`. -/
def Call.aborts (c : Call) : Bool :=
  match c.result with
  | some err => decide (err ≠ GoError.SkipDir)
  | none => false

/-- A call made on a directory that returned `filepath.SkipDir`. -/
def Call.skipsDir (c : Call) : Bool :=
  c.arg.isDir && decide (c.result = some GoError.SkipDir)

/-- The entry (path and metadata) a call was made on; calls made with a stat error
have none. -/
def Call.entry (c : Call) : Option FileInfo :=
  match c.arg with
  | StatResult.ok info => some ⟨c.path, info⟩
  | StatResult.error _ => none

/-! ### The directory tree below a path -/

/-- Entry of the directory `dir` described by `info`. -/
def child (lib : PathLib) (dir : String) (info : OsFileInfo) : FileInfo :=
  ⟨lib.join dir info.name, info⟩

/-- Every entry beneath the directory `dir`, down to `depth` levels, each
directory followed by the entries beneath it. -/
def below (fs : FileSystem) (lib : PathLib) : Nat → String → List FileInfo
  | 0, _ => []
  | depth + 1, dir =>
    (readdir fs dir).1.flatMap fun info =>
      child lib dir info ::
        (if info.isDir then below fs lib depth (lib.join dir info.name) else [])

/-- The tree below `dir` is finite: no chain of nested directories starting with
`dir` has more than `depth` members. -/
def finiteBelow (fs : FileSystem) (lib : PathLib) : Nat → String → Bool
  | 0, _ => false
  | depth + 1, dir =>
    (readdir fs dir).1.all fun info =>
      !info.isDir || finiteBelow fs lib depth (lib.join dir info.name)

/-- Every directory of the tree below `dir` (and `dir` itself) is listed without an
error. -/
def listable (fs : FileSystem) (lib : PathLib) : Nat → String → Bool
  | 0, _ => true
  | depth + 1, dir =>
    (readdir fs dir).2.isNone &&
      (readdir fs dir).1.all fun info =>
        !info.isDir || listable fs lib depth (lib.join dir info.name)

/-- Number of directories in the tree of `dir`, itself included: the number of
frames `walk` can pop. -/
def dirCount (fs : FileSystem) (lib : PathLib) : Nat → String → Nat
  | 0, _ => 1
  | depth + 1, dir =>
    1 + ((readdir fs dir).1.map fun info =>
      if info.isDir then dirCount fs lib depth (lib.join dir info.name) else 0).sum

/-- The tree of a root path, as `walk` sees it: nothing when the stat fails, the
root alone when it is not a directory, the root and all entries beneath it
otherwise. -/
def tree (fs : FileSystem) (lib : PathLib) (depth : Nat) (root : String) : List FileInfo :=
  match fs.lstat root with
  | StatResult.error _ => []
  | StatResult.ok info =>
    if info.isDir then ⟨root, info⟩ :: below fs lib depth root else [⟨root, info⟩]

/-! ## The result accumulator (`main.go`, lines 140-162) -/

/-- Source `resultMap`, a `map[string]map[string]struct{}`. -/
abbrev resultMap := Finmap (fun _ : String => Finset String)

/-- Source `newResultMap`. -/
def newResultMap : resultMap := ∅

/-- Source `resultMap.add`: the returned flag and the map after the call. -/
def resultMap.add (r : resultMap) (key value : String) : Bool × resultMap :=
  match r.lookup key with
  | some values =>
    if value ∈ values then (false, r)
    else (true, r.insert key (insert value values))
  | none => (true, r.insert key {value})

/-- Source `resultMap.hasKey`. -/
def resultMap.hasKey (r : resultMap) (key : String) : Bool :=
  (r.lookup key).isSome

/-- Go `len(result)`: the number of keys. -/
def resultMap.len (r : resultMap) : Nat := r.keys.card

/-- The paths recorded under `key` (`r[key]`, empty when the key is absent). -/
def resultMap.paths (r : resultMap) (key : String) : Finset String :=
  (r.lookup key).getD ∅

/-! ## The search (`main.go`, lines 58-130) -/

/-- What `main` keeps while it searches: the result map and the lines written with
`fmt.Println` so far. -/
structure MainState where
  result : resultMap
  stdout : List String
  deriving DecidableEq

/-- Source `isFile` (lines 164-167), with `os.Stat`. -/
def isFile (fs : FileSystem) (path : String) : Bool :=
  match fs.stat path with
  | StatResult.ok info => !info.isDir
  | StatResult.error _ => false

/-- The map literal of lines 58-63. -/
def defaultPathExt : Finset String := {".com", ".exe", ".bat", ".cmd"}

/-- The map `pathExt` after the loop of lines 65-67 over the split value of the
variable `PATHEXT`. -/
def pathExtOf (lib : PathLib) (pathextValue : String) : Finset String :=
  (lib.splitList pathextValue).foldl (fun acc ext => insert (lib.toLower ext) acc)
    defaultPathExt

/-- The tail `result.add(cmd, name)` and `fmt.Println(name)` of the conditions of
lines 79, 83 and 113. -/
def record (st : MainState) (cmd name : String) : MainState :=
  if (st.result.add cmd name).1 then ⟨(st.result.add cmd name).2, st.stdout ++ [name]⟩
  else ⟨(st.result.add cmd name).2, st.stdout⟩

/-- The condition of lines 79 and 83 with its body: `name` is recorded for `cmd` when
the command is still wanted and `name` is a file. -/
def probe (fs : FileSystem) (showAll : Bool) (cmd name : String) (st : MainState) :
    MainState :=
  if (!st.result.hasKey cmd || showAll) && isFile fs name then record st cmd name else st

/-- The body of the loop over the commands in the flat phase (lines 73-86), for the
directory `p`. `exts` is the order in which `range pathExt` yields the keys of the
map. -/
def flatCommand (fs : FileSystem) (lib : PathLib) (exts : List String) (showAll : Bool)
    (p cmd : String) (st : MainState) : MainState :=
  let f := lib.join p cmd
  if !st.result.hasKey cmd || showAll then
    if (lib.ext cmd).length = 0 then
      exts.foldl (fun st ext => probe fs showAll cmd (f ++ ext) st) st
    else probe fs showAll cmd f st
  else st

/-- The flat phase (lines 71-88). The order `range pathExt` yields may differ from
one loop to the next: `exts p cmd` is the order in the iteration for the directory
`p` and the command `cmd`. -/
def flatPhase (fs : FileSystem) (lib : PathLib) (exts : String → String → List String)
    (showAll : Bool) (commands paths : List String) (st : MainState) : MainState :=
  paths.foldl (fun st p =>
    commands.foldl (fun st cmd => flatCommand fs lib (exts p cmd) showAll p cmd st) st) st

/-- The match rule of the visitor (lines 103-113) for the command `cmd` and the
visited path `p`: the lowered extension of `p` is a key of `pathExt`, and the
lowered base name of `p` is the lowered command, with the extension of `p` appended
when the command has none. -/
def traversalMatch (lib : PathLib) (pathExt : Finset String) (cmd p : String) : Bool :=
  decide (lib.toLower (lib.ext p) ∈ pathExt) &&
    decide (lib.toLower (lib.base p) =
      lib.toLower (if (lib.ext cmd).length = 0 then cmd ++ lib.ext p else cmd))

/-- The visitor's treatment of one command (lines 102-117) at the visited path
`p`. -/
def visitCommand (lib : PathLib) (pathExt : Finset String) (showAll : Bool)
    (p cmd : String) (st : MainState) : MainState :=
  let found := st.result.hasKey cmd
  if !found || showAll then
    if traversalMatch lib pathExt cmd p then record st cmd p else st
  else st

/-- The loop of the visitor over the commands (lines 101-121), `total` being
`len(commands)`. The flag tells whether the loop returned `errFound` (line 119). -/
def visitCommands (lib : PathLib) (pathExt : Finset String) (showAll : Bool) (total : Nat)
    (p : String) : List String → MainState → Bool × MainState
  | [], st => (false, st)
  | cmd :: cmds, st =>
    if !showAll && total = (visitCommand lib pathExt showAll p cmd st).result.len then
      (true, visitCommand lib pathExt showAll p cmd st)
    else visitCommands lib pathExt showAll total p cmds (visitCommand lib pathExt showAll p cmd st)

/-- The visitor `main` passes to `walk` (lines 92-128). -/
def visitor (lib : PathLib) (pathExt : Finset String) (showAll : Bool)
    (commands : List String) : WalkFunc MainState :=
  fun st p arg =>
    match arg with
    | StatResult.error _ => (some GoError.SkipDir, st)
    | StatResult.ok info =>
      if info.isDir then (none, st)
      else
        match visitCommands lib pathExt showAll commands.length p commands st with
        | (true, st1) => (some GoError.errFound, st1)
        | (false, st1) =>
          if !showAll && commands.length = st1.result.len then (some GoError.errFound, st1)
          else (none, st1)

/-- The condition of line 90: the recursive phase is entered. -/
def entersRecursivePhase (showAll : Bool) (commands : List String) (st : MainState) : Bool :=
  showAll || decide (st.result.len ≠ commands.length)

/-- The loop of lines 91-129: one walk per directory of `searchDirs`; the value
`walk` returns is dropped. -/
def recursivePhase (fs : FileSystem) (lib : PathLib) (fuel : Nat) (pathExt : Finset String)
    (showAll : Bool) (commands searchDirs : List String) (st : MainState) : MainState :=
  searchDirs.foldl (fun st dir =>
    (walk fs lib fuel dir (visitor lib pathExt showAll commands) st).2) st

/-- Lines 69-130 of `main`: the flat phase over `paths`, then, when line 90 says
so, the recursive phase over `searchDirs`. -/
def search (fs : FileSystem) (lib : PathLib) (fuel : Nat) (exts : String → String → List String)
    (pathExt : Finset String) (showAll : Bool) (commands paths searchDirs : List String) :
    MainState :=
  let st := flatPhase fs lib exts showAll commands paths ⟨newResultMap, []⟩
  if entersRecursivePhase showAll commands st then
    recursivePhase fs lib fuel pathExt showAll commands searchDirs st
  else st

/-! ## Predicates and reference functions of the theorems -/

/-- No call of the log aborts. -/
def NoAbort (log : List Call) : Prop := ∀ c ∈ log, c.aborts = false

/-- The last call of the log aborts with `err`, and no earlier call aborts. -/
def EndsWithAbort (log : List Call) (err : GoError) : Prop :=
  ∃ pre c, log = pre ++ [c] ∧ NoAbort pre ∧ c.result = some err ∧ c.aborts = true

/-- The directories among the entries `infos` of `dir`, as frames. -/
def dirFrames (lib : PathLib) (dir : String) (infos : List OsFileInfo) : List FileInfo :=
  (infos.filter fun info => info.isDir).map (child lib dir)

/-- The non-directories among the entries `infos` of `dir`. -/
def fileEntries (lib : PathLib) (dir : String) (infos : List OsFileInfo) : List FileInfo :=
  (infos.filter fun info => !info.isDir).map (child lib dir)

/-- A directory frame and every entry beneath it. -/
def subtree (fs : FileSystem) (lib : PathLib) (depth : Nat) (fr : FileInfo) : List FileInfo :=
  fr :: below fs lib depth fr.Path

/-- The subtrees of a list of directory frames. -/
def forest (fs : FileSystem) (lib : PathLib) (depth : Nat) (frames : List FileInfo) :
    List FileInfo :=
  frames.flatMap (subtree fs lib depth)

/-- Every frame is a directory whose tree has at most `depth` levels. -/
def Bounded (fs : FileSystem) (lib : PathLib) (depth : Nat) (frames : List FileInfo) : Prop :=
  ∀ fr ∈ frames, fr.info.isDir = true ∧ finiteBelow fs lib depth fr.Path = true

/-- Fuel that suffices to pop the frames and every directory beneath them. -/
def framesCount (fs : FileSystem) (lib : PathLib) (depth : Nat) (frames : List FileInfo) : Nat :=
  (frames.map fun fr => dirCount fs lib depth fr.Path).sum

/-- The visitor never aborts a walk: on every entry it returns `nil` or
`filepath.SkipDir`. -/
def NeverAborts {σ : Type} (walkFn : WalkFunc σ) : Prop :=
  ∀ s path info, (walkFn s path (StatResult.ok info)).1 = none ∨
    (walkFn s path (StatResult.ok info)).1 = some GoError.SkipDir

/-- The calls a walk makes, from the moment `frames` are the top of the stack until
they and everything pushed above them are popped, when the visitor does not abort:
a frame is skipped, or it is entered, its non-directory entries are visited in
turn, its directories are pushed and walked (last pushed first), before the walk
goes on with the frames below. -/
inductive Visits (fs : FileSystem) (lib : PathLib) : Nat → List FileInfo → List Call → Prop
  | nil (d : Nat) : Visits fs lib d [] []
  | skip (d : Nat) (fr : FileInfo) (frames : List FileInfo) (calls : List Call) :
      Visits fs lib d frames calls →
      Visits fs lib d (fr :: frames)
        (⟨fr.Path, StatResult.ok fr.info, some GoError.SkipDir⟩ :: calls)
  | enter (d : Nat) (fr : FileInfo) (frames : List FileInfo)
      (fileCalls inner calls : List Call) :
      fileCalls.map Call.entry = (fileEntries lib fr.Path (readdir fs fr.Path).1).map some →
      (∀ c ∈ fileCalls, c.skipsDir = false) →
      Visits fs lib d (dirFrames lib fr.Path (readdir fs fr.Path).1).reverse inner →
      Visits fs lib (d + 1) frames calls →
      Visits fs lib (d + 1) (fr :: frames)
        (⟨fr.Path, StatResult.ok fr.info, none⟩ :: (fileCalls ++ inner ++ calls))

/-- At most one path is recorded for each command. -/
def AtMostOne (st : MainState) : Prop := ∀ k, (st.result.paths k).card ≤ 1

/-- What the flat phase finds for the command `cmd`: an existing non-directory file
`x` that is `dir/cmd` followed by a recognized extension, for a directory `dir` of
`paths`, when the command has no extension, and `dir/cmd` itself when it has one. -/
def FlatMatch (fs : FileSystem) (lib : PathLib) (pathExt : Finset String)
    (paths : List String) (cmd x : String) : Prop :=
  ∃ dir ∈ paths, isFile fs x = true ∧
    if (lib.ext cmd).length = 0 then ∃ ext ∈ pathExt, x = lib.join dir cmd ++ ext
    else x = lib.join dir cmd

/-- What the recursive phase finds for the command `cmd`: the path `x` of a
non-directory entry of the tree of a directory of `searchDirs` that satisfies the
match rule of the visitor. -/
def TreeMatch (fs : FileSystem) (lib : PathLib) (depth : Nat) (pathExt : Finset String)
    (searchDirs : List String) (cmd x : String) : Prop :=
  ∃ dir ∈ searchDirs, ∃ e ∈ tree fs lib depth dir,
    e.info.isDir = false ∧ e.Path = x ∧ traversalMatch lib pathExt cmd x = true

/-- The step `step` of the search adds to the recorded paths exactly the pairs of a
command and a path that satisfy `found`. -/
def Adds (step : MainState → MainState) (found : String → String → Prop) : Prop :=
  ∀ st k x, x ∈ (step st).result.paths k ↔ x ∈ st.result.paths k ∨ found k x

/-- The filesystem `fs` with every listing error taken away: each directory is
listed without an error, with the entries `readdir` returns on `fs` (none for a
directory that cannot be opened). -/
def withoutListingErrors (fs : FileSystem) : FileSystem where
  stat := fs.stat
  lstat := fs.lstat
  osOpen := fun _ => none
  readdirAll := fun path => ((readdir fs path).1, none)

/-! ## Concrete inputs -/

/-- A `PathLib` for slash-separated clean paths: `join` puts a slash between its
two elements, `ext` is the suffix of the last element from its last dot, `base` is
the last element, `toLower` lowers the ASCII letters, `splitList` splits at colons. -/
def slashLib : PathLib where
  join := fun dir name => dir ++ "/" ++ name
  ext := fun path =>
    let last := path.data.reverse.takeWhile (fun c => c != '/')
    if last.contains '.' then String.mk ((last.takeWhile (fun c => c != '.')).reverse.cons '.')
    else ""
  base := fun path => String.mk (path.data.reverse.takeWhile (fun c => c != '/')).reverse
  toLower := fun s => String.mk (s.data.map Char.toLower)
  splitList := fun s => (s.data.splitOn ':').map String.mk

/-- A filesystem with one tree: the directory `/r` holds the file `a` and the
directories `d` and `e`; `/r/d` holds the file `b` and the empty directory `dd`;
`/r/e` holds the file `c`. The path `/f` is a file; no other path exists. -/
def demoFs : FileSystem where
  stat := fun p =>
    if p = "/r" then StatResult.ok ⟨"r", true⟩
    else if p = "/f" then StatResult.ok ⟨"f", false⟩
    else StatResult.error (GoError.os "ENOENT")
  lstat := fun p =>
    if p = "/r" then StatResult.ok ⟨"r", true⟩
    else if p = "/f" then StatResult.ok ⟨"f", false⟩
    else StatResult.error (GoError.os "ENOENT")
  osOpen := fun _ => none
  readdirAll := fun p =>
    if p = "/r" then ([⟨"a", false⟩, ⟨"d", true⟩, ⟨"e", true⟩], none)
    else if p = "/r/d" then ([⟨"b", false⟩, ⟨"dd", true⟩], none)
    else if p = "/r/e" then ([⟨"c", false⟩], none)
    else ([], none)

/-- A filesystem with failing listings: `Readdir` on the directory `/r` returns the
entries `a` (a file) and `d`, `e` (directories) together with an error; the
directory `/r/d` cannot be opened; `/r/e` holds the file `c`. -/
def brokenFs : FileSystem where
  stat := fun p =>
    if p = "/r" then StatResult.ok ⟨"r", true⟩ else StatResult.error (GoError.os "ENOENT")
  lstat := fun p =>
    if p = "/r" then StatResult.ok ⟨"r", true⟩ else StatResult.error (GoError.os "ENOENT")
  osOpen := fun p => if p = "/r/d" then some (GoError.os "EACCES") else none
  readdirAll := fun p =>
    if p = "/r" then ([⟨"a", false⟩, ⟨"d", true⟩, ⟨"e", true⟩], some (GoError.os "EIO"))
    else if p = "/r/e" then ([⟨"c", false⟩], none)
    else ([], none)

/-- A visitor without state that always continues. -/
def continueFn : WalkFunc Unit := fun s _ _ => (none, s)

/-- A visitor without state that aborts with `errFound` on the path `target`. -/
def abortAt (target : String) : WalkFunc Unit :=
  fun s p _ => (if p = target then some GoError.errFound else none, s)

/-- A visitor without state that returns `filepath.SkipDir` on the path `target`. -/
def skipAt (target : String) : WalkFunc Unit :=
  fun s p _ => (if p = target then some GoError.SkipDir else none, s)

/-- A filesystem for the search: the directory `/bin` holds the files `ls.exe` and
`ls.bat`; the directory `/opt` holds the file `ls.exe`, the file `notes.txt` and the
directory `sub` with the file `LS.EXE`. -/
def searchFs : FileSystem where
  stat := fun p =>
    if p = "/bin" ∨ p = "/opt" ∨ p = "/opt/sub" then StatResult.ok ⟨slashLib.base p, true⟩
    else if p = "/bin/ls.exe" ∨ p = "/bin/ls.bat" ∨ p = "/opt/ls.exe" ∨ p = "/opt/notes.txt" ∨
        p = "/opt/sub/LS.EXE" then StatResult.ok ⟨slashLib.base p, false⟩
    else StatResult.error (GoError.os "ENOENT")
  lstat := fun p =>
    if p = "/bin" ∨ p = "/opt" ∨ p = "/opt/sub" then StatResult.ok ⟨slashLib.base p, true⟩
    else if p = "/bin/ls.exe" ∨ p = "/bin/ls.bat" ∨ p = "/opt/ls.exe" ∨ p = "/opt/notes.txt" ∨
        p = "/opt/sub/LS.EXE" then StatResult.ok ⟨slashLib.base p, false⟩
    else StatResult.error (GoError.os "ENOENT")
  osOpen := fun _ => none
  readdirAll := fun p =>
    if p = "/bin" then ([⟨"ls.exe", false⟩, ⟨"ls.bat", false⟩], none)
    else if p = "/opt" then ([⟨"ls.exe", false⟩, ⟨"sub", true⟩, ⟨"notes.txt", false⟩], none)
    else if p = "/opt/sub" then ([⟨"LS.EXE", false⟩], none)
    else ([], none)

/-- An order of the built-in extensions, the same in every loop. -/
def defaultOrder : String → String → List String :=
  fun _ _ => [".com", ".exe", ".bat", ".cmd"]

/-! ## Further reference functions and inputs -/

/-- The result map reached from `newResultMap()` by the calls `add(k, v)` for the
pairs `(k, v)` of `ops`, in their order. -/
def addAll (ops : List (String × String)) : resultMap :=
  ops.foldl (fun r kv => (r.add kv.1 kv.2).2) newResultMap

/-- An enumeration lists `p1` before `p2`: both occur, `p1` first. -/
def ListedBefore (p1 p2 : String) (l : List String) : Prop :=
  p2 ∈ l ∧ l.indexOf p1 < l.indexOf p2

/-- The visitor `walkFn` with `filepath.SkipDir` replaced by `nil` when it is
returned for a non-directory. -/
def skipAsContinueOnFiles {σ : Type} (walkFn : WalkFunc σ) : WalkFunc σ :=
  fun s p arg =>
    if !arg.isDir && decide ((walkFn s p arg).1 = some GoError.SkipDir) then
      (none, (walkFn s p arg).2)
    else walkFn s p arg

/-- A filesystem for a command with an extension: the directory `/bin` holds the
files `a.exe` and `a.exe.bat`. -/
def extFs : FileSystem where
  stat := fun p =>
    if p = "/bin" then StatResult.ok ⟨"bin", true⟩
    else if p = "/bin/a.exe" then StatResult.ok ⟨"a.exe", false⟩
    else if p = "/bin/a.exe.bat" then StatResult.ok ⟨"a.exe.bat", false⟩
    else StatResult.error (GoError.os "ENOENT")
  lstat := fun p =>
    if p = "/bin" then StatResult.ok ⟨"bin", true⟩
    else if p = "/bin/a.exe" then StatResult.ok ⟨"a.exe", false⟩
    else if p = "/bin/a.exe.bat" then StatResult.ok ⟨"a.exe.bat", false⟩
    else StatResult.error (GoError.os "ENOENT")
  osOpen := fun _ => none
  readdirAll := fun p =>
    if p = "/bin" then ([⟨"a.exe", false⟩, ⟨"a.exe.bat", false⟩], none) else ([], none)

/-- Every path recorded for the command `cmd` satisfies `good`. -/
def RecordedAll (cmd : String) (good : String → Prop) (st : MainState) : Prop :=
  ∀ x ∈ st.result.paths cmd, good x

/-- Another order of the built-in extensions, `.bat` before `.exe`. -/
def batFirstOrder : String → String → List String :=
  fun _ _ => [".com", ".bat", ".exe", ".cmd"]

/-- A filesystem with the one directory `/bin`, which holds the one file `ls`. -/
def lsFs : FileSystem where
  stat := fun p =>
    if p = "/bin" then StatResult.ok ⟨"bin", true⟩
    else if p = "/bin/ls" then StatResult.ok ⟨"ls", false⟩
    else StatResult.error (GoError.os "ENOENT")
  lstat := fun p =>
    if p = "/bin" then StatResult.ok ⟨"bin", true⟩
    else if p = "/bin/ls" then StatResult.ok ⟨"ls", false⟩
    else StatResult.error (GoError.os "ENOENT")
  osOpen := fun _ => none
  readdirAll := fun p => if p = "/bin" then ([⟨"ls", false⟩], none) else ([], none)

/-- An order of the keys of `pathExt` when the variable `PATHEXT` is `.py`. -/
def pyOrder : String → String → List String :=
  fun _ _ => [".com", ".exe", ".bat", ".cmd", ".py"]

/-- An order of the keys of `pathExt` when the variable `PATHEXT` is empty. -/
def emptyOrder : String → String → List String :=
  fun _ _ => [".com", ".exe", ".bat", ".cmd", ""]

/-! ## Theorems: the result accumulator -/

theorem resultMap.paths_add (r : resultMap) (k v k2 : String) :
    (r.add k v).2.paths k2 = if k2 = k then insert v (r.paths k) else r.paths k2 := by
  unfold resultMap.add resultMap.paths
  by_cases hk : k2 = k
  · subst hk
    cases hl : r.lookup k2 with
    | none => simp
    | some values =>
      by_cases hv : v ∈ values
      · simp [hv, hl]
      · simp [hv]
  · cases hl : r.lookup k with
    | none => simp [hk, Finmap.lookup_insert_of_ne]
    | some values =>
      by_cases hv : v ∈ values
      · simp [hv, hk]
      · simp [hv, hk, Finmap.lookup_insert_of_ne]

/-- C6: `r.add(k, v)` returns true exactly when `v` was not recorded under `k`
before the call (in particular when `k` was absent), and after the call `v` is
recorded under `k`. -/
theorem resultMap.add_spec (r : resultMap) (k v : String) :
    ((r.add k v).1 = true ↔ ¬ ∃ values, r.lookup k = some values ∧ v ∈ values) ∧
    (r.lookup k = none → (r.add k v).1 = true) ∧
    ∃ values, (r.add k v).2.lookup k = some values ∧ v ∈ values := by
  unfold resultMap.add
  cases hl : r.lookup k with
  | none => simp
  | some values =>
    by_cases hv : v ∈ values
    · simp [hv, hl]
    · simp [hv]

/-- C7: adding the pair `(k, v)` a second time returns false and leaves the map
unchanged; the number of paths recorded for every command is the same after two
adds as after one. -/
theorem resultMap.add_add (r : resultMap) (k v : String) :
    ((r.add k v).2.add k v) = (false, (r.add k v).2) ∧
    ∀ k2, (((r.add k v).2.add k v).2.paths k2).card = ((r.add k v).2.paths k2).card := by
  have h : ((r.add k v).2.add k v) = (false, (r.add k v).2) := by
    unfold resultMap.add
    cases hl : r.lookup k with
    | none => simp
    | some values =>
      by_cases hv : v ∈ values
      · simp [hv, hl]
      · simp [hv]
  exact ⟨h, fun k2 => by rw [h]⟩

/-! ## Theorems: the traversal engine -/

theorem traced_apply {σ : Type} (walkFn : WalkFunc σ) (s : σ) (log : List Call)
    (path : String) (arg : StatResult) :
    traced walkFn (s, log) path arg =
      ((walkFn s path arg).1, ((walkFn s path arg).2,
        log ++ [⟨path, arg, (walkFn s path arg).1⟩])) := rfl

theorem NoAbort.snoc {log : List Call} (h : NoAbort log) {c : Call} (hc : c.aborts = false) :
    NoAbort (log ++ [c]) := by
  intro x hx
  rcases List.mem_append.1 hx with hx | hx
  · exact h x hx
  · simp at hx; subst hx; exact hc

theorem NoAbort.not_split {log : List Call} (h : NoAbort log) {pre post : List Call} {c : Call}
    (hlog : log = pre ++ c :: post) (hc : c.aborts = true) : False := by
  have := h c (by rw [hlog]; simp)
  rw [hc] at this
  cases this

theorem EndsWithAbort.split {log : List Call} {err : GoError} (h : EndsWithAbort log err)
    {pre post : List Call} {c : Call} (hlog : log = pre ++ c :: post) (hc : c.aborts = true) :
    post = [] ∧ c.result = some err := by
  obtain ⟨pre2, c2, hlog2, hpre2, hres, _⟩ := h
  rcases List.eq_nil_or_concat post with hpost | ⟨post1, c3, hpost⟩
  · subst hpost
    rw [hlog2] at hlog
    have h2 := List.append_inj_right' hlog (by simp)
    have h3 : c2 = c := by simpa using h2
    subst h3
    exact ⟨rfl, hres⟩
  · exfalso
    rw [hpost, hlog2] at hlog
    have h4 : pre2 ++ [c2] = (pre ++ c :: post1) ++ [c3] := by rw [hlog]; simp
    have h5 := List.append_inj_left' h4 (by simp)
    exact hpre2.not_split h5 hc

theorem walkChildren_abort {σ : Type} (lib : PathLib) (walkFn : WalkFunc σ) (current : FileInfo)
    (infos : List OsFileInfo) :
    ∀ (stack : List FileInfo) (s : σ) (log : List Call), NoAbort log →
      match walkChildren lib (traced walkFn) current infos stack (s, log) with
      | (none, _, st) => NoAbort st.2
      | (some err, _, st) => EndsWithAbort st.2 err := by
  induction infos with
  | nil => intro stack s log h; simpa [walkChildren] using h
  | cons info infos ih =>
    intro stack s log h
    rw [walkChildren]
    by_cases hd : info.isDir = true
    · simp only [hd, if_true]
      exact ih _ s log h
    · simp only [hd, Bool.false_eq_true, if_false, traced_apply]
      rcases hr : (walkFn s (lib.join current.Path info.name) (StatResult.ok info)) with ⟨r, s1⟩
      cases r with
      | none =>
        simp only []
        exact ih _ s1 _ (h.snoc rfl)
      | some err =>
        simp only []
        by_cases he : err = GoError.SkipDir
        · simp only [he, ne_eq, not_true_eq_false, if_false]
          exact ih _ s1 _ (h.snoc (by simp [Call.aborts]))
        · simp only [he, ne_eq, not_false_eq_true, if_true]
          exact ⟨log, _, rfl, h, rfl, by simp [Call.aborts, he]⟩

theorem walkLoop_abort {σ : Type} (fs : FileSystem) (lib : PathLib) (walkFn : WalkFunc σ) :
    ∀ (fuel : Nat) (stack : List FileInfo) (s : σ) (log : List Call), NoAbort log →
      match walkLoop fs lib (traced walkFn) fuel stack (s, log) with
      | (Outcome.returned (some err), st) => EndsWithAbort st.2 err
      | (_, st) => NoAbort st.2 := by
  intro fuel
  induction fuel with
  | zero =>
    intro stack s log h
    cases stack <;> simpa [walkLoop] using h
  | succ fuel ih =>
    intro stack s log h
    cases stack with
    | nil => simpa [walkLoop] using h
    | cons current stack =>
      rw [walkLoop]
      simp only [traced_apply]
      rcases hr : (walkFn s current.Path (StatResult.ok current.info)) with ⟨r, s1⟩
      cases r with
      | some err =>
        simp only []
        by_cases he : err = GoError.SkipDir
        · simp only [he, ne_eq, not_true_eq_false, if_false]
          exact ih _ s1 _ (h.snoc (by simp [Call.aborts]))
        · simp only [he, ne_eq, not_false_eq_true, if_true]
          exact ⟨log, _, rfl, h, rfl, by simp [Call.aborts, he]⟩
      | none =>
        simp only []
        have hc := walkChildren_abort lib walkFn current (readdir fs current.Path).1 stack s1
          _ (h.snoc (c := ⟨current.Path, StatResult.ok current.info, none⟩) rfl)
        rcases hw : walkChildren lib (traced walkFn) current (readdir fs current.Path).1 stack
          (s1, log ++ [⟨current.Path, StatResult.ok current.info, none⟩]) with ⟨r2, stack2, st2⟩
        rw [hw] at hc
        rw [hw]
        cases r2 with
        | some err => exact hc
        | none => exact ih _ st2.1 st2.2 hc

theorem walk_abort_aux {σ : Type} (fs : FileSystem) (lib : PathLib) (fuel : Nat) (root : String)
    (walkFn : WalkFunc σ) (s : σ) :
    match walk fs lib fuel root (traced walkFn) (s, []) with
    | (Outcome.returned (some err), st) =>
      err = GoError.SkipDir ∧ NoAbort st.2 ∨ EndsWithAbort st.2 err
    | (_, st) => NoAbort st.2 := by
  have hnil : NoAbort [] := fun c hc => by cases hc
  have hone : ∀ (arg : StatResult),
      match ((Outcome.returned (traced walkFn (s, []) root arg).1,
        (traced walkFn (s, []) root arg).2) : Outcome × σ × List Call) with
      | (Outcome.returned (some err), st) =>
        err = GoError.SkipDir ∧ NoAbort st.2 ∨ EndsWithAbort st.2 err
      | (_, st) => NoAbort st.2 := by
    intro arg
    simp only [traced_apply]
    rcases hr : walkFn s root arg with ⟨r, s1⟩
    cases r with
    | none => exact hnil.snoc rfl
    | some err =>
      by_cases he : err = GoError.SkipDir
      · exact Or.inl ⟨he, hnil.snoc (by simp [Call.aborts, he])⟩
      · exact Or.inr ⟨[], _, rfl, hnil, rfl, by simp [Call.aborts, he]⟩
  unfold walk
  cases hl : fs.lstat root with
  | error err => exact hone _
  | ok info =>
    by_cases hd : info.isDir = true
    · simp only [hd, Bool.not_true, Bool.false_eq_true, if_false]
      have := walkLoop_abort fs lib walkFn fuel [⟨root, info⟩] s [] hnil
      revert this
      rcases walkLoop fs lib (traced walkFn) fuel [⟨root, info⟩] (s, []) with ⟨o, st⟩
      cases o with
      | outOfFuel => exact id
      | returned r =>
        cases r with
        | none => exact id
        | some err => exact Or.inr
    · simp only [hd, Bool.not_false, if_true]
      exact hone _

/-- C2: if some visitor call made by `walk` returns an error other than
`filepath.SkipDir`, then `walk` returns (it does not run on) with that same error
and that call is the last one of the run, whatever frames are still on the stack. -/
theorem walk_abort {σ : Type} (fs : FileSystem) (lib : PathLib) (fuel : Nat) (root : String)
    (walkFn : WalkFunc σ) (s : σ) (pre post : List Call) (c : Call)
    (hlog : (walk fs lib fuel root (traced walkFn) (s, [])).2.2 = pre ++ c :: post)
    (hc : c.aborts = true) :
    (walk fs lib fuel root (traced walkFn) (s, [])).1 = Outcome.returned c.result ∧
      post = [] := by
  have h := walk_abort_aux fs lib fuel root walkFn s
  revert hlog h
  rcases walk fs lib fuel root (traced walkFn) (s, []) with ⟨o, st⟩
  intro hlog h
  simp only at hlog
  cases o with
  | outOfFuel => exact (NoAbort.not_split h hlog hc).elim
  | returned r =>
    cases r with
    | none => exact (NoAbort.not_split h hlog hc).elim
    | some err =>
      rcases h with ⟨_, h⟩ | h
      · exact (NoAbort.not_split h hlog hc).elim
      · obtain ⟨h1, h2⟩ := h.split hlog hc
        exact ⟨by rw [h2], h1⟩

theorem walk_abort_witness :
    (walk demoFs slashLib 1 "/r" (traced (abortAt "/r/a")) ((), [])).2.2 =
        [⟨"/r", StatResult.ok ⟨"r", true⟩, none⟩] ++
          ⟨"/r/a", StatResult.ok ⟨"a", false⟩, some GoError.errFound⟩ :: [] ∧
      (walk demoFs slashLib 1 "/r" (traced (abortAt "/r/a")) ((), [])).1 =
        Outcome.returned (some GoError.errFound) ∧ ([] : List Call) = [] :=
  ⟨by decide, walk_abort demoFs slashLib 1 "/r" (abortAt "/r/a") ()
    [⟨"/r", StatResult.ok ⟨"r", true⟩, none⟩] []
    ⟨"/r/a", StatResult.ok ⟨"a", false⟩, some GoError.errFound⟩ (by decide) (by decide)⟩

/-- C4: when the stat of `root` fails or its metadata is not a directory, `walk`
calls the visitor exactly once, with `root` and the stat result, and returns what
the visitor returned (also when that is `filepath.SkipDir`); no directory listing
plays a part: the run is the same on every filesystem that agrees on the stat of
`root`, with any fuel. -/
theorem walk_not_directory {σ : Type} (fs : FileSystem) (lib : PathLib) (fuel : Nat)
    (root : String) (walkFn : WalkFunc σ) (s : σ)
    (h : (fs.lstat root).isDir = false) :
    walk fs lib fuel root (traced walkFn) (s, []) =
        (Outcome.returned (walkFn s root (fs.lstat root)).1,
          ((walkFn s root (fs.lstat root)).2,
            [⟨root, fs.lstat root, (walkFn s root (fs.lstat root)).1⟩])) ∧
      ∀ (fs2 : FileSystem) (fuel2 : Nat), fs2.lstat root = fs.lstat root →
        walk fs2 lib fuel2 root (traced walkFn) (s, []) =
          walk fs lib fuel root (traced walkFn) (s, []) := by
  have key : ∀ (fs1 : FileSystem) (fuel1 : Nat), fs1.lstat root = fs.lstat root →
      walk fs1 lib fuel1 root (traced walkFn) (s, []) =
        (Outcome.returned (walkFn s root (fs.lstat root)).1,
          ((walkFn s root (fs.lstat root)).2,
            [⟨root, fs.lstat root, (walkFn s root (fs.lstat root)).1⟩])) := by
    intro fs1 fuel1 h1
    unfold walk
    rw [h1]
    cases hl : fs.lstat root with
    | error err => simp [traced_apply]
    | ok info =>
      have hd : info.isDir = false := by simpa [hl, StatResult.isDir] using h
      simp [traced_apply, hd]
  exact ⟨key fs fuel rfl, fun fs2 fuel2 h2 => (key fs2 fuel2 h2).trans (key fs fuel rfl).symm⟩

theorem walk_not_directory_witness :
    (demoFs.lstat "/f").isDir = false ∧
      walk demoFs slashLib 0 "/f" (traced (skipAt "/f")) ((), []) =
        (Outcome.returned (some GoError.SkipDir),
          ((), [⟨"/f", StatResult.ok ⟨"f", false⟩, some GoError.SkipDir⟩])) :=
  ⟨by decide, (walk_not_directory demoFs slashLib 0 "/f" (skipAt "/f") () (by decide)).1⟩

/-! ### Trees of bounded depth -/

theorem forest_cons (fs : FileSystem) (lib : PathLib) (d : Nat) (fr : FileInfo)
    (frames : List FileInfo) :
    forest fs lib d (fr :: frames) =
      fr :: (below fs lib d fr.Path ++ forest fs lib d frames) := rfl

theorem forest_perm (fs : FileSystem) (lib : PathLib) (d : Nat) {f1 f2 : List FileInfo}
    (h : f1.Perm f2) : (forest fs lib d f1).Perm (forest fs lib d f2) :=
  h.flatMap_right _

theorem below_succ_perm (fs : FileSystem) (lib : PathLib) (d : Nat) (dir : String) :
    (below fs lib (d + 1) dir).Perm
      (fileEntries lib dir (readdir fs dir).1 ++ forest fs lib d (dirFrames lib dir (readdir fs dir).1)) := by
  rw [below]
  generalize (readdir fs dir).1 = infos
  induction infos with
  | nil => simp [fileEntries, dirFrames, forest]
  | cons info infos ih =>
    by_cases hd : info.isDir = true
    · simp only [List.flatMap_cons, hd, if_true, fileEntries, dirFrames, List.filter_cons,
        Bool.not_true, Bool.false_eq_true, if_false, List.map_cons, forest_cons]
      simp only [fileEntries, dirFrames] at ih
      have h1 := (@List.perm_middle _ (child lib dir info)
        (List.map (child lib dir) (List.filter (fun info => !info.isDir) infos))
        (below fs lib d (child lib dir info).Path ++
          forest fs lib d (List.map (child lib dir) (List.filter (fun info => info.isDir) infos)))).symm
      refine List.Perm.trans ?_ h1
      refine List.Perm.cons _ ?_
      have h2 : (below fs lib d (lib.join dir info.name) ++
          List.flatMap infos (fun info => child lib dir info ::
            if info.isDir = true then below fs lib d (lib.join dir info.name) else [])).Perm
          (below fs lib d (lib.join dir info.name) ++
            (List.map (child lib dir) (List.filter (fun info => !info.isDir) infos) ++
            forest fs lib d (List.map (child lib dir) (List.filter (fun info => info.isDir) infos)))) :=
        List.Perm.append_left _ ih
      refine h2.trans ?_
      simp only [child]
      rw [← List.append_assoc, ← List.append_assoc]
      exact List.Perm.append_right _ List.perm_append_comm
    · have hd2 : info.isDir = false := by simpa using hd
      simp only [List.flatMap_cons, hd2, Bool.false_eq_true, if_false, fileEntries, dirFrames,
        List.filter_cons, Bool.not_false, if_true, List.map_cons, List.cons_append,
        List.singleton_append]
      simp only [fileEntries, dirFrames] at ih
      exact List.Perm.cons _ ih

theorem bounded_dirFrames (fs : FileSystem) (lib : PathLib) (d : Nat) (dir : String)
    (h : finiteBelow fs lib (d + 1) dir = true) :
    Bounded fs lib d (dirFrames lib dir (readdir fs dir).1).reverse := by
  intro fr hfr
  rw [finiteBelow, List.all_eq_true] at h
  simp only [dirFrames, List.mem_reverse, List.mem_map, List.mem_filter] at hfr
  obtain ⟨info, ⟨hmem, hdir⟩, rfl⟩ := hfr
  have := h info hmem
  simp only [hdir, Bool.not_true, Bool.false_or] at this
  exact ⟨hdir, this⟩

theorem finiteBelow_succ (fs : FileSystem) (lib : PathLib) :
    ∀ (d : Nat) (dir : String), finiteBelow fs lib d dir = true →
      finiteBelow fs lib (d + 1) dir = true := by
  intro d
  induction d with
  | zero => intro dir h; simp [finiteBelow] at h
  | succ d ih =>
    intro dir h
    rw [finiteBelow, List.all_eq_true] at h ⊢
    intro info hmem
    have := h info hmem
    cases hd : info.isDir with
    | false => simp
    | true =>
      simp only [hd, Bool.not_true, Bool.false_or] at this ⊢
      exact ih _ this

theorem below_succ_eq (fs : FileSystem) (lib : PathLib) :
    ∀ (d : Nat) (dir : String), finiteBelow fs lib d dir = true →
      below fs lib (d + 1) dir = below fs lib d dir := by
  intro d
  induction d with
  | zero => intro dir h; simp [finiteBelow] at h
  | succ d ih =>
    intro dir h
    rw [finiteBelow, List.all_eq_true] at h
    rw [below, below]
    refine List.flatMap_congr ?_
    intro info hmem
    have := h info hmem
    cases hd : info.isDir with
    | false => simp
    | true =>
      simp only [hd, Bool.not_true, Bool.false_or] at this
      simp [ih _ this]

theorem walkLoop_nil {σ : Type} (fs : FileSystem) (lib : PathLib) (walkFn : WalkFunc σ)
    (fuel : Nat) (s : σ) : walkLoop fs lib walkFn fuel [] s = (Outcome.returned none, s) := by
  cases fuel <;> rfl

theorem walkLoop_skip {σ : Type} (fs : FileSystem) (lib : PathLib) (walkFn : WalkFunc σ)
    (fuel : Nat) (cur : FileInfo) (stack : List FileInfo) (s s1 : σ)
    (h : walkFn s cur.Path (StatResult.ok cur.info) = (some GoError.SkipDir, s1)) :
    walkLoop fs lib walkFn (fuel + 1) (cur :: stack) s = walkLoop fs lib walkFn fuel stack s1 := by
  rw [walkLoop, h]
  simp

theorem walkLoop_enter {σ : Type} (fs : FileSystem) (lib : PathLib) (walkFn : WalkFunc σ)
    (fuel : Nat) (cur : FileInfo) (stack stack2 : List FileInfo) (s s1 s2 : σ)
    (h : walkFn s cur.Path (StatResult.ok cur.info) = (none, s1))
    (hc : walkChildren lib walkFn cur (readdir fs cur.Path).1 stack s1 = (none, stack2, s2)) :
    walkLoop fs lib walkFn (fuel + 1) (cur :: stack) s = walkLoop fs lib walkFn fuel stack2 s2 := by
  rw [walkLoop, h]
  simp only []
  rw [hc]

theorem walkChildren_visits {σ : Type} (lib : PathLib) (walkFn : WalkFunc σ)
    (hna : NeverAborts walkFn) (cur : FileInfo) (infos : List OsFileInfo) :
    ∀ (stack : List FileInfo) (s : σ) (log : List Call), ∃ s1 fileCalls,
      walkChildren lib (traced walkFn) cur infos stack (s, log) =
        (none, (dirFrames lib cur.Path infos).reverse ++ stack, (s1, log ++ fileCalls)) ∧
      fileCalls.map Call.entry = (fileEntries lib cur.Path infos).map some ∧
      ∀ c ∈ fileCalls, c.skipsDir = false := by
  induction infos with
  | nil => intro stack s log; exact ⟨s, [], by simp [walkChildren, dirFrames, fileEntries]⟩
  | cons info infos ih =>
    intro stack s log
    by_cases hd : info.isDir = true
    · rw [walkChildren]
      simp only [hd, if_true]
      obtain ⟨s1, fileCalls, h1, h2, h3⟩ := ih (⟨lib.join cur.Path info.name, info⟩ :: stack) s log
      refine ⟨s1, fileCalls, ?_, ?_, h3⟩
      · rw [h1]; simp [dirFrames, hd, child]
      · rw [h2]; simp [fileEntries, hd]
    · have hd2 : info.isDir = false := by simpa using hd
      rcases hr : walkFn s (lib.join cur.Path info.name) (StatResult.ok info) with ⟨r, s0⟩
      have hr1 := hna s (lib.join cur.Path info.name) info
      rw [hr] at hr1
      simp only at hr1
      have hstep : walkChildren lib (traced walkFn) cur (info :: infos) stack (s, log) =
          walkChildren lib (traced walkFn) cur infos stack
            (s0, log ++ [⟨lib.join cur.Path info.name, StatResult.ok info, r⟩]) := by
        rw [walkChildren]
        simp only [hd2, Bool.false_eq_true, if_false, traced_apply, hr]
        rcases hr1 with h | h <;> subst h <;> simp
      rw [hstep]
      obtain ⟨s1, fileCalls, h1, h2, h3⟩ := ih stack s0
        (log ++ [⟨lib.join cur.Path info.name, StatResult.ok info, r⟩])
      refine ⟨s1, ⟨lib.join cur.Path info.name, StatResult.ok info, r⟩ :: fileCalls, ?_, ?_, ?_⟩
      · rw [h1]; simp [dirFrames, hd2]
      · simp [fileEntries, hd2, h2, Call.entry, child]
      · intro c hc
        rcases List.mem_cons.1 hc with rfl | hc
        · simp [Call.skipsDir, StatResult.isDir, hd2]
        · exact h3 c hc

theorem framesCount_dirFrames (fs : FileSystem) (lib : PathLib) (d : Nat) (dir : String)
    (infos : List OsFileInfo) :
    framesCount fs lib d (dirFrames lib dir infos).reverse =
      (infos.map fun info =>
        if info.isDir then dirCount fs lib d (lib.join dir info.name) else 0).sum := by
  unfold framesCount
  rw [List.map_reverse, List.sum_reverse]
  induction infos with
  | nil => rfl
  | cons info infos ih =>
    by_cases hd : info.isDir = true
    · simp only [dirFrames, List.filter_cons, hd, if_true, List.map_cons, List.sum_cons, child]
      simp only [dirFrames, child] at ih
      rw [ih]
    · have hd2 : info.isDir = false := by simpa using hd
      simp only [dirFrames, List.filter_cons, hd2, Bool.false_eq_true, if_false, List.map_cons,
        List.sum_cons, zero_add]
      simp only [dirFrames] at ih
      rw [ih]

theorem walkLoop_visits {σ : Type} (fs : FileSystem) (lib : PathLib) (walkFn : WalkFunc σ)
    (hna : NeverAborts walkFn) :
    ∀ (d : Nat) (frames : List FileInfo), Bounded fs lib d frames →
      ∀ (rest : List FileInfo) (s : σ) (log : List Call), ∃ k s1 calls,
        k ≤ framesCount fs lib d frames ∧ Visits fs lib d frames calls ∧
        ∀ fuel, walkLoop fs lib (traced walkFn) (k + fuel) (frames ++ rest) (s, log) =
          walkLoop fs lib (traced walkFn) fuel rest (s1, log ++ calls) := by
  intro d
  induction d with
  | zero =>
    intro frames hb rest s log
    cases frames with
    | nil => exact ⟨0, s, [], Nat.zero_le _, Visits.nil 0, fun fuel => by simp⟩
    | cons fr frames =>
      have := (hb fr (List.mem_cons_self _ _)).2
      simp [finiteBelow] at this
  | succ d ih =>
    intro frames
    induction frames with
    | nil =>
      intro _ rest s log
      exact ⟨0, s, [], Nat.zero_le _, Visits.nil _, fun fuel => by simp⟩
    | cons fr frames ihF =>
      intro hb rest s log
      have hfr := hb fr (List.mem_cons_self _ _)
      have hbF : Bounded fs lib (d + 1) frames := fun x hx => hb x (List.mem_cons_of_mem _ hx)
      have hcount : framesCount fs lib (d + 1) (fr :: frames) =
          1 + framesCount fs lib d (dirFrames lib fr.Path (readdir fs fr.Path).1).reverse +
            framesCount fs lib (d + 1) frames := by
        rw [framesCount_dirFrames]
        simp [framesCount, dirCount]
      rcases hr : walkFn s fr.Path (StatResult.ok fr.info) with ⟨r, s0⟩
      have hr1 := hna s fr.Path fr.info
      rw [hr] at hr1
      simp only at hr1
      have htr : traced walkFn (s, log) fr.Path (StatResult.ok fr.info) =
          (r, (s0, log ++ [⟨fr.Path, StatResult.ok fr.info, r⟩])) := by
        rw [traced_apply, hr]
      rcases hr1 with h | h
      · subst h
        obtain ⟨s1, fileCalls, hc1, hc2, hc3⟩ := walkChildren_visits lib walkFn hna fr
          (readdir fs fr.Path).1 (frames ++ rest) s0
          (log ++ [⟨fr.Path, StatResult.ok fr.info, none⟩])
        obtain ⟨kG, sG, inner, hkG, hvG, hrunG⟩ := ih _ (bounded_dirFrames fs lib d fr.Path hfr.2)
          (frames ++ rest) s1 (log ++ [⟨fr.Path, StatResult.ok fr.info, none⟩] ++ fileCalls)
        obtain ⟨kF, sF, calls, hkF, hvF, hrunF⟩ := ihF hbF rest sG
          (log ++ [⟨fr.Path, StatResult.ok fr.info, none⟩] ++ fileCalls ++ inner)
        refine ⟨1 + kG + kF, sF, ⟨fr.Path, StatResult.ok fr.info, none⟩ ::
          (fileCalls ++ inner ++ calls), by omega, Visits.enter d fr frames fileCalls inner calls
            hc2 hc3 hvG hvF, ?_⟩
        intro fuel
        have e1 : 1 + kG + kF + fuel = (kG + (kF + fuel)) + 1 := by omega
        rw [e1, List.cons_append, walkLoop_enter fs lib (traced walkFn) _ fr _ _ _ _ _ htr hc1,
          hrunG, hrunF]
        simp
      · subst h
        obtain ⟨kF, sF, calls, hkF, hvF, hrunF⟩ := ihF hbF rest s0
          (log ++ [⟨fr.Path, StatResult.ok fr.info, some GoError.SkipDir⟩])
        refine ⟨kF + 1, sF, ⟨fr.Path, StatResult.ok fr.info, some GoError.SkipDir⟩ :: calls,
          by omega, Visits.skip _ fr frames calls hvF, ?_⟩
        intro fuel
        have e1 : kF + 1 + fuel = (kF + fuel) + 1 := by omega
        rw [e1, List.cons_append, walkLoop_skip fs lib (traced walkFn) _ fr _ _ _ htr, hrunF]
        simp

theorem mem_below_succ (fs : FileSystem) (lib : PathLib) (d : Nat) (dir : String) (e : FileInfo) :
    e ∈ below fs lib (d + 1) dir ↔ ∃ info ∈ (readdir fs dir).1,
      e = child lib dir info ∨
        (info.isDir = true ∧ e ∈ below fs lib d (lib.join dir info.name)) := by
  rw [below, List.mem_flatMap]
  constructor
  · rintro ⟨info, hmem, he⟩
    refine ⟨info, hmem, ?_⟩
    rcases List.mem_cons.1 he with h | h
    · exact Or.inl h
    · by_cases hd : info.isDir = true
      · rw [if_pos hd] at h; exact Or.inr ⟨hd, h⟩
      · rw [if_neg hd] at h; cases h
  · rintro ⟨info, hmem, h | ⟨hd, h⟩⟩
    · exact ⟨info, hmem, by rw [h]; exact List.mem_cons_self _ _⟩
    · exact ⟨info, hmem, List.mem_cons_of_mem _ (by rw [if_pos hd]; exact h)⟩

theorem finiteBelow_child (fs : FileSystem) (lib : PathLib) (d : Nat) (dir : String)
    (h : finiteBelow fs lib (d + 1) dir = true) (info : OsFileInfo)
    (hmem : info ∈ (readdir fs dir).1) (hd : info.isDir = true) :
    finiteBelow fs lib d (lib.join dir info.name) = true := by
  rw [finiteBelow, List.all_eq_true] at h
  have := h info hmem
  simpa [hd] using this

theorem finiteBelow_of_mem_below (fs : FileSystem) (lib : PathLib) :
    ∀ (d : Nat) (dir : String), finiteBelow fs lib d dir = true →
      ∀ e ∈ below fs lib d dir, e.info.isDir = true →
        finiteBelow fs lib d e.Path = true ∧
          ∀ x ∈ below fs lib d e.Path, x ∈ below fs lib d dir := by
  intro d
  induction d with
  | zero => intro dir h; simp [finiteBelow] at h
  | succ d ih =>
    intro dir h e he hdir
    obtain ⟨info, hmem, hcase⟩ := (mem_below_succ fs lib d dir e).1 he
    rcases hcase with rfl | ⟨hd, hin⟩
    · have hfin := finiteBelow_child fs lib d dir h info hmem hdir
      refine ⟨finiteBelow_succ fs lib d _ hfin, ?_⟩
      intro x hx
      simp only [child] at hx
      rw [below_succ_eq fs lib d _ hfin] at hx
      exact (mem_below_succ fs lib d dir x).2 ⟨info, hmem, Or.inr ⟨hdir, hx⟩⟩
    · have hfin := finiteBelow_child fs lib d dir h info hmem hd
      obtain ⟨h1, h2⟩ := ih _ hfin e hin hdir
      refine ⟨finiteBelow_succ fs lib d _ h1, ?_⟩
      intro x hx
      rw [below_succ_eq fs lib d _ h1] at hx
      exact (mem_below_succ fs lib d dir x).2 ⟨info, hmem, Or.inr ⟨hd, h2 x hx⟩⟩

theorem mem_forest (fs : FileSystem) (lib : PathLib) (d : Nat) (frames : List FileInfo)
    (e : FileInfo) :
    e ∈ forest fs lib d frames ↔ ∃ fr ∈ frames, e = fr ∨ e ∈ below fs lib d fr.Path := by
  simp [forest, subtree, List.mem_flatMap]

theorem finiteBelow_of_mem_forest (fs : FileSystem) (lib : PathLib) (d : Nat)
    (frames : List FileInfo) (hb : Bounded fs lib d frames) (e : FileInfo)
    (he : e ∈ forest fs lib d frames) (hdir : e.info.isDir = true) :
    finiteBelow fs lib d e.Path = true ∧
      ∀ x ∈ below fs lib d e.Path, x ∈ forest fs lib d frames := by
  obtain ⟨fr, hfr, hcase⟩ := (mem_forest fs lib d frames e).1 he
  rcases hcase with rfl | hin
  · exact ⟨(hb e hfr).2, fun x hx => (mem_forest fs lib d frames x).2 ⟨e, hfr, Or.inr hx⟩⟩
  · obtain ⟨h1, h2⟩ := finiteBelow_of_mem_below fs lib d fr.Path (hb fr hfr).2 e hin hdir
    exact ⟨h1, fun x hx => (mem_forest fs lib d frames x).2 ⟨fr, hfr, Or.inr (h2 x hx)⟩⟩

theorem forest_succ_perm (fs : FileSystem) (lib : PathLib) (d : Nat) (fr : FileInfo)
    (frames : List FileInfo) :
    (forest fs lib (d + 1) (fr :: frames)).Perm
      (fr :: (fileEntries lib fr.Path (readdir fs fr.Path).1 ++
        forest fs lib d (dirFrames lib fr.Path (readdir fs fr.Path).1).reverse ++
        forest fs lib (d + 1) frames)) := by
  rw [forest_cons]
  refine List.Perm.cons _ (List.Perm.append_right _ ?_)
  refine (below_succ_perm fs lib d fr.Path).trans (List.Perm.append_left _ ?_)
  exact forest_perm fs lib d (List.reverse_perm _).symm

theorem subperm_append {α : Type} {a1 a2 b1 b2 : List α} (ha : a1.Subperm a2)
    (hb : b1.Subperm b2) : (a1 ++ b1).Subperm (a2 ++ b2) :=
  ((List.subperm_append_left a1).2 hb).trans ((List.subperm_append_right b2).2 ha)

theorem Visits.subperm {fs : FileSystem} {lib : PathLib} {d : Nat} {frames : List FileInfo}
    {calls : List Call} (h : Visits fs lib d frames calls) :
    (calls.map Call.entry).Subperm ((forest fs lib d frames).map some) := by
  induction h with
  | nil d => simp [forest]
  | skip d fr frames calls _ ih =>
    rw [forest_cons]
    simp only [List.map_cons, Call.entry, List.map_append]
    refine (List.subperm_cons _).2 ?_
    exact ih.trans (List.Sublist.subperm (List.sublist_append_right _ _))
  | enter d fr frames fileCalls inner calls hf _ _ _ ih1 ih2 =>
    refine List.Subperm.trans ?_ ((forest_succ_perm fs lib d fr frames).map some).symm.subperm
    simp only [List.map_cons, Call.entry, List.map_append]
    refine (List.subperm_cons _).2 ?_
    rw [hf]
    exact subperm_append (subperm_append (List.Subperm.refl _) ih1) ih2

theorem Visits.perm {fs : FileSystem} {lib : PathLib} {d : Nat} {frames : List FileInfo}
    {calls : List Call} (h : Visits fs lib d frames calls) (hb : Bounded fs lib d frames)
    (hns : ∀ c ∈ calls, c.skipsDir = false) :
    (calls.map Call.entry).Perm ((forest fs lib d frames).map some) := by
  induction h with
  | nil d => simp [forest]
  | skip d fr frames calls _ _ =>
    have := hns _ (List.mem_cons_self _ _)
    simp [Call.skipsDir, StatResult.isDir, (hb fr (List.mem_cons_self _ _)).1] at this
  | enter d fr frames fileCalls inner calls hf _ _ _ ih1 ih2 =>
    refine List.Perm.trans ?_ ((forest_succ_perm fs lib d fr frames).map some).symm
    simp only [List.map_cons, Call.entry, List.map_append]
    refine List.Perm.cons _ ?_
    rw [hf]
    have hfr := hb fr (List.mem_cons_self _ _)
    have h1 := ih1 (bounded_dirFrames fs lib d fr.Path hfr.2)
      (fun c hc => hns c (List.mem_cons_of_mem _ (by simp [hc])))
    have h2 := ih2 (fun x hx => hb x (List.mem_cons_of_mem _ hx))
      (fun c hc => hns c (List.mem_cons_of_mem _ (by simp [hc])))
    exact List.Perm.append (List.Perm.append (List.Perm.refl _) h1) h2

theorem Visits.call_in_forest {fs : FileSystem} {lib : PathLib} {d : Nat} {frames : List FileInfo}
    {calls : List Call} (h : Visits fs lib d frames calls) {c : Call} (hc : c ∈ calls) :
    ∃ e ∈ forest fs lib d frames, c.entry = some e ∧ e.Path = c.path ∧
      StatResult.ok e.info = c.arg := by
  have h1 : c.entry ∈ (forest fs lib d frames).map some :=
    h.subperm.subset (List.mem_map_of_mem _ hc)
  obtain ⟨e, he, heq⟩ := List.mem_map.1 h1
  refine ⟨e, he, heq.symm, ?_⟩
  unfold Call.entry at heq
  cases harg : c.arg with
  | error err => rw [harg] at heq; cases heq
  | ok info =>
    rw [harg] at heq
    simp only [Option.some.injEq] at heq
    subst heq
    exact ⟨rfl, rfl⟩

/-- Coverage: an entry of the forest is visited, or lies beneath a directory on
which the visitor returned `filepath.SkipDir`. -/
theorem Visits.covers {fs : FileSystem} {lib : PathLib} {d : Nat} {frames : List FileInfo}
    {calls : List Call} (h : Visits fs lib d frames calls) (hb : Bounded fs lib d frames) :
    ∀ e ∈ forest fs lib d frames, some e ∈ calls.map Call.entry ∨
      ∃ c ∈ calls, c.skipsDir = true ∧ e ∈ Which.below fs lib d c.path := by
  induction h with
  | nil d => intro e he; simp [forest] at he
  | skip d fr frames calls _ ih =>
    intro e he
    have hfr := hb fr (List.mem_cons_self _ _)
    rw [forest_cons] at he
    rcases List.mem_cons.1 he with rfl | he
    · exact Or.inl (by simp [Call.entry])
    · rcases List.mem_append.1 he with he | he
      · exact Or.inr ⟨_, List.mem_cons_self _ _,
          by simp [Call.skipsDir, StatResult.isDir, hfr.1], he⟩
      · rcases ih (fun x hx => hb x (List.mem_cons_of_mem _ hx)) e he with h1 | ⟨c, hc, h1, h2⟩
        · exact Or.inl (by simp only [List.map_cons]; exact List.mem_cons_of_mem _ h1)
        · exact Or.inr ⟨c, List.mem_cons_of_mem _ hc, h1, h2⟩
  | enter d fr frames fileCalls inner calls hf _ hv _ ih1 ih2 =>
    intro e he
    have hfr := hb fr (List.mem_cons_self _ _)
    have hbG := bounded_dirFrames fs lib d fr.Path hfr.2
    have he2 := (forest_succ_perm fs lib d fr frames).subset he
    simp only [List.map_cons, List.map_append, List.mem_cons, List.mem_append]
    rcases List.mem_cons.1 he2 with rfl | he2
    · exact Or.inl (Or.inl (by simp [Call.entry]))
    · rcases List.mem_append.1 he2 with he2 | he2
      · rcases List.mem_append.1 he2 with he2 | he2
        · refine Or.inl (Or.inr (Or.inl (Or.inl ?_)))
          rw [hf]
          exact List.mem_map_of_mem _ he2
        · rcases ih1 hbG e he2 with h1 | ⟨c, hc, h1, h2⟩
          · exact Or.inl (Or.inr (Or.inl (Or.inr h1)))
          · refine Or.inr ⟨c, Or.inr (Or.inl (Or.inr hc)), h1, ?_⟩
            obtain ⟨x, hx, _, hxp, hxa⟩ := hv.call_in_forest hc
            have hxd : x.info.isDir = true := by
              have : c.arg.isDir = true := by
                simp only [Call.skipsDir, Bool.and_eq_true] at h1; exact h1.1
              rw [← hxa] at this
              exact this
            have hfin := (finiteBelow_of_mem_forest fs lib d _ hbG x hx hxd).1
            rw [hxp] at hfin
            rw [below_succ_eq fs lib d _ hfin]
            exact h2
      · rcases ih2 (fun x hx => hb x (List.mem_cons_of_mem _ hx)) e he2 with h1 | ⟨c, hc, h1, h2⟩
        · exact Or.inl (Or.inr (Or.inr h1))
        · exact Or.inr ⟨c, Or.inr (Or.inr hc), h1, h2⟩

theorem Call.entry_eq {c : Call} {e : FileInfo} (h : c.entry = some e) :
    e.Path = c.path ∧ StatResult.ok e.info = c.arg := by
  unfold Call.entry at h
  cases harg : c.arg with
  | error err => rw [harg] at h; cases h
  | ok info =>
    rw [harg] at h
    simp only [Option.some.injEq] at h
    subst h
    exact ⟨rfl, rfl⟩

theorem path_mem_of_entries {calls : List Call} {entries : List FileInfo}
    (h : ∀ c ∈ calls, c.entry ∈ entries.map some) {p : String}
    (hp : p ∈ calls.map Call.path) : p ∈ entries.map FileInfo.Path := by
  obtain ⟨c, hc, rfl⟩ := List.mem_map.1 hp
  obtain ⟨e, he, heq⟩ := List.mem_map.1 (h c hc)
  exact List.mem_map.2 ⟨e, he, (Call.entry_eq heq.symm).1⟩

theorem Visits.path_mem {fs : FileSystem} {lib : PathLib} {d : Nat} {frames : List FileInfo}
    {calls : List Call} (h : Visits fs lib d frames calls) {p : String}
    (hp : p ∈ calls.map Call.path) : p ∈ (forest fs lib d frames).map FileInfo.Path :=
  path_mem_of_entries (fun _ hc => h.subperm.subset (List.mem_map_of_mem _ hc)) hp

theorem disjoint_of_nodup_append {l1 l2 : List String} (h : (l1 ++ l2).Nodup) {p : String}
    (h1 : p ∈ l1) (h2 : p ∈ l2) : False :=
  (List.nodup_append.1 h).2.2 h1 h2

/-- In a tree without repeated paths, nothing beneath a skipped directory is
visited. -/
theorem Visits.skipped_unvisited {fs : FileSystem} {lib : PathLib} {d : Nat}
    {frames : List FileInfo} {calls : List Call} (h : Visits fs lib d frames calls)
    (hb : Bounded fs lib d frames)
    (hnd : ((forest fs lib d frames).map FileInfo.Path).Nodup) :
    ∀ c ∈ calls, c.skipsDir = true → ∀ e ∈ Which.below fs lib d c.path,
      e.Path ∉ calls.map Call.path := by
  induction h with
  | nil d => intro c hc; cases hc
  | skip d fr frames calls hv ih =>
    have hbF : Bounded fs lib d frames := fun x hx => hb x (List.mem_cons_of_mem _ hx)
    rw [forest_cons, List.map_cons, List.map_append, List.nodup_cons] at hnd
    obtain ⟨hfr, hnd2⟩ := hnd
    have hndF := (List.nodup_append.1 hnd2).2.1
    intro c hc hskip e he hmem
    rw [List.map_cons, List.mem_cons] at hmem
    rcases List.mem_cons.1 hc with rfl | hc
    · have he1 : e.Path ∈ (Which.below fs lib d fr.Path).map FileInfo.Path :=
        List.mem_map_of_mem _ he
      rcases hmem with hmem | hmem
      · have hmem1 : e.Path = fr.Path := hmem
        exact hfr (List.mem_append_left _ (hmem1 ▸ he1))
      · exact disjoint_of_nodup_append hnd2 he1 (hv.path_mem hmem)
    · obtain ⟨x, hx, _, hxp, hxa⟩ := hv.call_in_forest hc
      have hxd : x.info.isDir = true := by
        have : c.arg.isDir = true := by
          simp only [Call.skipsDir, Bool.and_eq_true] at hskip; exact hskip.1
        rw [← hxa] at this
        exact this
      have hsub := (finiteBelow_of_mem_forest fs lib d _ hbF x hx hxd).2
      rw [hxp] at hsub
      rcases hmem with hmem | hmem
      · have hmem1 : e.Path = fr.Path := hmem
        exact hfr (List.mem_append_right _ (hmem1 ▸ List.mem_map_of_mem _ (hsub e he)))
      · exact ih hbF hndF c hc hskip e he hmem
  | enter d fr frames fileCalls inner calls hf hfc hvG hvF ih1 ih2 =>
    have hfr0 := hb fr (List.mem_cons_self _ _)
    have hbG := bounded_dirFrames fs lib d fr.Path hfr0.2
    have hbF : Bounded fs lib (d + 1) frames := fun x hx => hb x (List.mem_cons_of_mem _ hx)
    have hnd1 := (((forest_succ_perm fs lib d fr frames).map FileInfo.Path).nodup_iff).1 hnd
    rw [List.map_cons, List.map_append, List.map_append, List.nodup_cons] at hnd1
    obtain ⟨hfr, hnd2⟩ := hnd1
    have hnd23 := (List.nodup_append.1 hnd2).1
    have hndF := (List.nodup_append.1 hnd2).2.1
    have hndG := (List.nodup_append.1 hnd23).2.1
    have hfcp : ∀ {p : String}, p ∈ fileCalls.map Call.path →
        p ∈ (fileEntries lib fr.Path (readdir fs fr.Path).1).map FileInfo.Path :=
      fun hp => path_mem_of_entries
        (fun c hc => by rw [← hf]; exact List.mem_map_of_mem _ hc) hp
    intro c hc hskip e he hmem
    rw [List.map_cons, List.map_append, List.map_append, List.mem_cons, List.mem_append,
      List.mem_append] at hmem
    have hcarg : c.arg.isDir = true := by
      simp only [Call.skipsDir, Bool.and_eq_true] at hskip; exact hskip.1
    rcases List.mem_cons.1 hc with rfl | hc
    · simp [Call.skipsDir] at hskip
    · rcases List.mem_append.1 hc with hc | hc
      · rcases List.mem_append.1 hc with hc | hc
        · rw [hfc c hc] at hskip; cases hskip
        · obtain ⟨x, hx, _, hxp, hxa⟩ := hvG.call_in_forest hc
          have hxd : x.info.isDir = true := by rw [← hxa] at hcarg; exact hcarg
          obtain ⟨hfin, hsub⟩ := finiteBelow_of_mem_forest fs lib d _ hbG x hx hxd
          rw [hxp] at hfin hsub
          rw [below_succ_eq fs lib d _ hfin] at he
          have he3 : e.Path ∈ (forest fs lib d
              (dirFrames lib fr.Path (readdir fs fr.Path).1).reverse).map FileInfo.Path :=
            List.mem_map_of_mem _ (hsub e he)
          rcases hmem with hmem | (hmem | hmem) | hmem
          · have hmem1 : e.Path = fr.Path := hmem
            exact hfr (List.mem_append_left _ (List.mem_append_right _ (hmem1 ▸ he3)))
          · exact disjoint_of_nodup_append hnd23 (hfcp hmem) he3
          · exact ih1 hbG hndG c hc hskip e he hmem
          · exact disjoint_of_nodup_append hnd2 (List.mem_append_right _ he3) (hvF.path_mem hmem)
      · obtain ⟨x, hx, _, hxp, hxa⟩ := hvF.call_in_forest hc
        have hxd : x.info.isDir = true := by rw [← hxa] at hcarg; exact hcarg
        obtain ⟨_, hsub⟩ := finiteBelow_of_mem_forest fs lib (d + 1) _ hbF x hx hxd
        rw [hxp] at hsub
        have he4 : e.Path ∈ (forest fs lib (d + 1) frames).map FileInfo.Path :=
          List.mem_map_of_mem _ (hsub e he)
        rcases hmem with hmem | (hmem | hmem) | hmem
        · have hmem1 : e.Path = fr.Path := hmem
          exact hfr (List.mem_append_right _ (hmem1 ▸ he4))
        · exact disjoint_of_nodup_append hnd2 (List.mem_append_left _ (hfcp hmem)) he4
        · exact disjoint_of_nodup_append hnd2
            (List.mem_append_right _ (hvG.path_mem hmem)) he4
        · exact ih2 hbF hndF c hc hskip e he hmem

/-! ### Invariants of the visitor state -/

theorem walkChildren_invariant {τ : Type} (lib : PathLib) (w : WalkFunc τ) (I : τ → Prop)
    (hI : ∀ t p arg, I t → I (w t p arg).2) (cur : FileInfo) (infos : List OsFileInfo) :
    ∀ (stack : List FileInfo) (t : τ), I t → I (walkChildren lib w cur infos stack t).2.2 := by
  induction infos with
  | nil => intro stack t h; simpa [walkChildren] using h
  | cons info infos ih =>
    intro stack t h
    rw [walkChildren]
    by_cases hd : info.isDir = true
    · simp only [hd, if_true]
      exact ih _ t h
    · simp only [hd, Bool.false_eq_true, if_false]
      have h1 := hI t (lib.join cur.Path info.name) (StatResult.ok info) h
      rcases hr : w t (lib.join cur.Path info.name) (StatResult.ok info) with ⟨r, t1⟩
      rw [hr] at h1
      cases r with
      | none => exact ih _ t1 h1
      | some err =>
        by_cases he : err = GoError.SkipDir
        · simp only [he, ne_eq, not_true_eq_false, if_false]
          exact ih _ t1 h1
        · simp only [he, ne_eq, not_false_eq_true, if_true]
          exact h1

theorem walkLoop_invariant {τ : Type} (fs : FileSystem) (lib : PathLib) (w : WalkFunc τ)
    (I : τ → Prop) (hI : ∀ t p arg, I t → I (w t p arg).2) :
    ∀ (fuel : Nat) (stack : List FileInfo) (t : τ), I t →
      I (walkLoop fs lib w fuel stack t).2 := by
  intro fuel
  induction fuel with
  | zero => intro stack t h; cases stack <;> simpa [walkLoop] using h
  | succ fuel ih =>
    intro stack t h
    cases stack with
    | nil => simpa [walkLoop] using h
    | cons cur stack =>
      rw [walkLoop]
      have h1 := hI t cur.Path (StatResult.ok cur.info) h
      rcases hr : w t cur.Path (StatResult.ok cur.info) with ⟨r, t1⟩
      rw [hr] at h1
      cases r with
      | some err =>
        by_cases he : err = GoError.SkipDir
        · simp only [he, ne_eq, not_true_eq_false, if_false]
          exact ih _ t1 h1
        · simp only [he, ne_eq, not_false_eq_true, if_true]
          exact h1
      | none =>
        simp only []
        have h2 := walkChildren_invariant lib w I hI cur (readdir fs cur.Path).1 stack t1 h1
        rcases hw : walkChildren lib w cur (readdir fs cur.Path).1 stack t1 with ⟨r2, stack2, t2⟩
        rw [hw] at h2
        cases r2 with
        | some err => exact h2
        | none => exact ih _ t2 h2

theorem walk_invariant {τ : Type} (fs : FileSystem) (lib : PathLib) (w : WalkFunc τ)
    (I : τ → Prop) (hI : ∀ t p arg, I t → I (w t p arg).2) (fuel : Nat) (root : String)
    (t : τ) (h : I t) : I (walk fs lib fuel root w t).2 := by
  unfold walk
  cases fs.lstat root with
  | error err => exact hI _ _ _ h
  | ok info =>
    by_cases hd : info.isDir = true
    · simp only [hd, Bool.not_true, Bool.false_eq_true, if_false]
      exact walkLoop_invariant fs lib w I hI fuel _ t h
    · simp only [hd, Bool.not_false, if_true]
      exact hI _ _ _ h

/-- Every call in the log of a traced run satisfies what every call of the
visitor satisfies. -/
theorem walk_log_all {σ : Type} (fs : FileSystem) (lib : PathLib) (walkFn : WalkFunc σ)
    (P : Call → Prop) (hP : ∀ s p arg, P ⟨p, arg, (walkFn s p arg).1⟩) (fuel : Nat)
    (root : String) (s : σ) :
    ∀ c ∈ (walk fs lib fuel root (traced walkFn) (s, [])).2.2, P c := by
  refine walk_invariant fs lib (traced walkFn) (fun st => ∀ c ∈ st.2, P c) ?_ fuel root (s, [])
    (fun c hc => by cases hc)
  intro t p arg ht c hc
  rw [traced_apply] at hc
  rcases List.mem_append.1 hc with hc | hc
  · exact ht c hc
  · simp only [List.mem_singleton] at hc
    subst hc
    exact hP _ _ _

/-- A walk of a finite tree with a visitor that never aborts: it returns `nil`, and
its calls are described by `Visits`. -/
theorem walk_visits {σ : Type} (fs : FileSystem) (lib : PathLib) (d : Nat) (root : String)
    (info : OsFileInfo) (walkFn : WalkFunc σ) (s : σ) (fuel : Nat)
    (hroot : fs.lstat root = StatResult.ok info) (hdir : info.isDir = true)
    (hfin : finiteBelow fs lib d root = true) (hna : NeverAborts walkFn)
    (hfuel : dirCount fs lib d root ≤ fuel) :
    (walk fs lib fuel root (traced walkFn) (s, [])).1 = Outcome.returned none ∧
      Visits fs lib d [⟨root, info⟩] (walk fs lib fuel root (traced walkFn) (s, [])).2.2 := by
  have hb : Bounded fs lib d [⟨root, info⟩] := by
    intro fr hfr
    simp only [List.mem_singleton] at hfr
    subst hfr
    exact ⟨hdir, hfin⟩
  obtain ⟨k, s1, calls, hk, hv, hrun⟩ := walkLoop_visits fs lib walkFn hna d _ hb [] s []
  have hk2 : k ≤ fuel := by
    have : framesCount fs lib d [⟨root, info⟩] = dirCount fs lib d root := by
      simp [framesCount]
    omega
  have hrun2 := hrun (fuel - k)
  rw [Nat.add_sub_cancel' hk2, walkLoop_nil] at hrun2
  have hw : walk fs lib fuel root (traced walkFn) (s, []) = (Outcome.returned none, s1, calls) := by
    unfold walk
    rw [hroot]
    simp only [hdir, Bool.not_true, Bool.false_eq_true, if_false]
    simpa using hrun2
  rw [hw]
  exact ⟨rfl, hv⟩

theorem bounded_root (fs : FileSystem) (lib : PathLib) (d : Nat) (root : String)
    (info : OsFileInfo) (hdir : info.isDir = true) (hfin : finiteBelow fs lib d root = true) :
    Bounded fs lib d [⟨root, info⟩] := by
  intro fr hfr
  simp only [List.mem_singleton] at hfr
  subst hfr
  exact ⟨hdir, hfin⟩

theorem tree_eq_forest (fs : FileSystem) (lib : PathLib) (d : Nat) (root : String)
    (info : OsFileInfo) (hroot : fs.lstat root = StatResult.ok info) (hdir : info.isDir = true) :
    tree fs lib d root = forest fs lib d [⟨root, info⟩] := by
  simp [tree, hroot, hdir, forest, subtree]

/-- C1: on a finite directory tree whose root is a directory and whose directories
can all be listed, with a visitor that always returns `nil`, `walk` terminates (any
fuel from the number of directories on suffices), returns `nil`, and its calls are,
up to their order, exactly one call on the root and one on every entry beneath it. -/
theorem walk_visits_every_entry {σ : Type} (fs : FileSystem) (lib : PathLib) (d : Nat)
    (root : String) (info : OsFileInfo) (walkFn : WalkFunc σ) (s : σ) (fuel : Nat)
    (hroot : fs.lstat root = StatResult.ok info) (hdir : info.isDir = true)
    (hfin : finiteBelow fs lib d root = true) (_hlist : listable fs lib d root = true)
    (hcont : ∀ s p arg, (walkFn s p arg).1 = none)
    (hfuel : dirCount fs lib d root ≤ fuel) :
    (walk fs lib fuel root (traced walkFn) (s, [])).1 = Outcome.returned none ∧
      ((walk fs lib fuel root (traced walkFn) (s, [])).2.2.map Call.entry).Perm
        ((⟨root, info⟩ :: below fs lib d root).map some) := by
  have hna : NeverAborts walkFn := fun s p i => Or.inl (hcont s p _)
  obtain ⟨h1, h2⟩ := walk_visits fs lib d root info walkFn s fuel hroot hdir hfin hna hfuel
  refine ⟨h1, ?_⟩
  have hres := walk_log_all fs lib walkFn (fun c => c.result = none)
    (fun s p arg => hcont s p arg) fuel root s
  have := h2.perm (bounded_root fs lib d root info hdir hfin)
    (fun c hc => by simp [Call.skipsDir, hres c hc])
  simpa [forest, subtree] using this

theorem walk_visits_every_entry_witness :
    (walk demoFs slashLib 4 "/r" (traced continueFn) ((), [])).1 = Outcome.returned none ∧
      ((walk demoFs slashLib 4 "/r" (traced continueFn) ((), [])).2.2.map Call.entry).Perm
        ((⟨"/r", ⟨"r", true⟩⟩ :: below demoFs slashLib 3 "/r").map some) :=
  walk_visits_every_entry demoFs slashLib 3 "/r" ⟨"r", true⟩ continueFn () 4
    (by decide) (by decide) (by decide) (by decide) (fun _ _ _ => rfl) (by decide)

/-- C3: on a finite directory tree (a directory root, no path reached twice) with a
visitor that never aborts, `walk` terminates and returns `nil`; when the visitor
returned `filepath.SkipDir` on a directory, no call of the run is on a path beneath
that directory; and every entry of the tree that is not beneath a directory so
skipped is visited. -/
theorem walk_skip_subtree {σ : Type} (fs : FileSystem) (lib : PathLib) (d : Nat)
    (root : String) (info : OsFileInfo) (walkFn : WalkFunc σ) (s : σ) (fuel : Nat)
    (hroot : fs.lstat root = StatResult.ok info) (hdir : info.isDir = true)
    (hfin : finiteBelow fs lib d root = true)
    (hnd : ((tree fs lib d root).map FileInfo.Path).Nodup)
    (hna : ∀ s p arg, (walkFn s p arg).1 = none ∨ (walkFn s p arg).1 = some GoError.SkipDir)
    (hfuel : dirCount fs lib d root ≤ fuel) :
    (walk fs lib fuel root (traced walkFn) (s, [])).1 = Outcome.returned none ∧
      (∀ c ∈ (walk fs lib fuel root (traced walkFn) (s, [])).2.2, c.skipsDir = true →
        ∀ e ∈ below fs lib d c.path,
          e.Path ∉ (walk fs lib fuel root (traced walkFn) (s, [])).2.2.map Call.path) ∧
      ∀ e ∈ tree fs lib d root,
        (∀ c ∈ (walk fs lib fuel root (traced walkFn) (s, [])).2.2, c.skipsDir = true →
          e ∉ below fs lib d c.path) →
        some e ∈ (walk fs lib fuel root (traced walkFn) (s, [])).2.2.map Call.entry := by
  have hna2 : NeverAborts walkFn := fun s p i => hna s p _
  obtain ⟨h1, h2⟩ := walk_visits fs lib d root info walkFn s fuel hroot hdir hfin hna2 hfuel
  have hb := bounded_root fs lib d root info hdir hfin
  rw [tree_eq_forest fs lib d root info hroot hdir] at hnd ⊢
  refine ⟨h1, h2.skipped_unvisited hb hnd, ?_⟩
  intro e he hout
  rcases h2.covers hb e he with h | ⟨c, hc, hs, hin⟩
  · exact h
  · exact (hout c hc hs hin).elim

theorem walk_skip_subtree_witness :
    (walk demoFs slashLib 4 "/r" (traced (skipAt "/r/d")) ((), [])).2.2.map Call.path =
        ["/r", "/r/a", "/r/e", "/r/e/c", "/r/d"] ∧
      (walk demoFs slashLib 4 "/r" (traced (skipAt "/r/d")) ((), [])).1 =
        Outcome.returned none :=
  ⟨by decide, (walk_skip_subtree demoFs slashLib 3 "/r" ⟨"r", true⟩ (skipAt "/r/d") () 4
    (by decide) (by decide) (by decide) (by decide)
    (fun _ p _ => by by_cases h : p = "/r/d" <;> simp [skipAt, h]) (by decide)).1⟩

/-! ### Listing errors -/

theorem walkLoop_congr_fs {σ : Type} (fs fs2 : FileSystem) (lib : PathLib)
    (walkFn : WalkFunc σ) (h : ∀ p, (readdir fs2 p).1 = (readdir fs p).1) :
    ∀ (fuel : Nat) (stack : List FileInfo) (s : σ),
      walkLoop fs2 lib walkFn fuel stack s = walkLoop fs lib walkFn fuel stack s := by
  intro fuel
  induction fuel with
  | zero => intro stack s; cases stack <;> rfl
  | succ fuel ih =>
    intro stack s
    cases stack with
    | nil => rfl
    | cons cur stack =>
      rw [walkLoop, walkLoop, h]
      rcases walkFn s cur.Path (StatResult.ok cur.info) with ⟨r, s1⟩
      cases r with
      | some err => simp only [ih]
      | none => simp only [ih]

/-- C5 (counterexample): the listing of `/r` fails, yet the visitor is called on
the children of `/r` that `Readdir` returned with its error. -/
theorem failed_listing_children_visited :
    (readdir brokenFs "/r").2 = some (GoError.os "EIO") ∧
      (walk brokenFs slashLib 3 "/r" (traced continueFn) ((), [])).2.2.map Call.path =
        ["/r", "/r/a", "/r/e", "/r/e/c", "/r/d"] := by
  decide

/-- C5 (amended): a listing error is never returned by `walk` and stops nothing:
every run of `walk` is the run on the filesystem in which each listing succeeds with
the entries `readdir` returned. Those are no entries at all when the directory
cannot be opened. -/
theorem walk_listing_errors_swallowed {σ : Type} (fs : FileSystem) (lib : PathLib)
    (fuel : Nat) (root : String) (walkFn : WalkFunc σ) (s : σ) :
    walk fs lib fuel root walkFn s = walk (withoutListingErrors fs) lib fuel root walkFn s ∧
      (∀ path, readdir (withoutListingErrors fs) path = ((readdir fs path).1, none)) ∧
      ∀ path err, fs.osOpen path = some err → readdir fs path = ([], some err) := by
  have h1 : ∀ path, readdir (withoutListingErrors fs) path = ((readdir fs path).1, none) :=
    fun path => rfl
  refine ⟨?_, h1, ?_⟩
  · unfold walk
    have hl : (withoutListingErrors fs).lstat root = fs.lstat root := rfl
    rw [hl]
    cases fs.lstat root with
    | error err => rfl
    | ok info =>
      simp only [walkLoop_congr_fs fs (withoutListingErrors fs) lib walkFn (fun p => by rw [h1])]
  · intro path err h
    simp [readdir, h]

/-! ## Theorems: the search -/

theorem foldl_invariant {α β : Type} (I : β → Prop) (f : β → α → β)
    (h : ∀ b a, I b → I (f b a)) : ∀ (l : List α) (b : β), I b → I (l.foldl f b) := by
  intro l
  induction l with
  | nil => intro b hb; exact hb
  | cons a l ih => intro b hb; exact ih _ (h b a hb)

theorem resultMap.paths_of_hasKey_false {r : resultMap} {k : String}
    (h : r.hasKey k = false) : r.paths k = ∅ := by
  unfold resultMap.hasKey at h
  unfold resultMap.paths
  cases hl : r.lookup k with
  | none => rfl
  | some v => rw [hl] at h; cases h

theorem record_result (st : MainState) (cmd name : String) :
    (record st cmd name).result = (st.result.add cmd name).2 := by
  unfold record
  split <;> rfl

theorem record_atMostOne {st : MainState} {cmd name : String} (h : AtMostOne st)
    (hk : st.result.hasKey cmd = false) : AtMostOne (record st cmd name) := by
  intro k
  rw [record_result, resultMap.paths_add]
  by_cases hkc : k = cmd
  · simp [hkc, resultMap.paths_of_hasKey_false hk]
  · simpa [hkc] using h k

theorem probe_atMostOne (fs : FileSystem) (cmd name : String) {st : MainState}
    (h : AtMostOne st) : AtMostOne (probe fs false cmd name st) := by
  unfold probe
  split
  · rename_i hc
    simp only [Bool.or_false, Bool.and_eq_true, Bool.not_eq_true'] at hc
    exact record_atMostOne h hc.1
  · exact h

theorem flatPhase_atMostOne (fs : FileSystem) (lib : PathLib)
    (exts : String → String → List String) (commands paths : List String) {st : MainState}
    (h : AtMostOne st) : AtMostOne (flatPhase fs lib exts false commands paths st) := by
  unfold flatPhase
  refine foldl_invariant AtMostOne _ ?_ paths st h
  intro st1 p h1
  refine foldl_invariant AtMostOne _ ?_ commands st1 h1
  intro st2 cmd h2
  unfold flatCommand
  simp only []
  split
  · split
    · exact foldl_invariant AtMostOne _ (fun b a hb => probe_atMostOne fs cmd _ hb) _ st2 h2
    · exact probe_atMostOne fs cmd _ h2
  · exact h2

theorem visitCommand_atMostOne (lib : PathLib) (pathExt : Finset String) (p cmd : String)
    {st : MainState} (h : AtMostOne st) :
    AtMostOne (visitCommand lib pathExt false p cmd st) := by
  unfold visitCommand
  simp only []
  split
  · rename_i hc
    simp only [Bool.or_false, Bool.not_eq_true'] at hc
    split
    · exact record_atMostOne h hc
    · exact h
  · exact h

theorem visitCommands_atMostOne (lib : PathLib) (pathExt : Finset String) (total : Nat)
    (p : String) (cmds : List String) :
    ∀ st, AtMostOne st → AtMostOne (visitCommands lib pathExt false total p cmds st).2 := by
  induction cmds with
  | nil => intro st h; exact h
  | cons cmd cmds ih =>
    intro st h
    rw [visitCommands]
    have h1 := visitCommand_atMostOne lib pathExt p cmd h
    split
    · exact h1
    · exact ih _ h1

theorem visitor_atMostOne (lib : PathLib) (pathExt : Finset String) (commands : List String)
    (st : MainState) (p : String) (arg : StatResult) (h : AtMostOne st) :
    AtMostOne (visitor lib pathExt false commands st p arg).2 := by
  unfold visitor
  cases arg with
  | error err => exact h
  | ok info =>
    simp only []
    split
    · exact h
    · have h1 := visitCommands_atMostOne lib pathExt commands.length p commands st h
      rcases hv : visitCommands lib pathExt false commands.length p commands st with ⟨b, st1⟩
      rw [hv] at h1
      cases b with
      | true => exact h1
      | false =>
        simp only []
        split <;> exact h1

/-- C10: with show-all disabled, whatever the commands, directories, extensions,
filesystem and fuel, the search ends with at most one path recorded for each
command. -/
theorem search_first_match_only (fs : FileSystem) (lib : PathLib) (fuel : Nat)
    (exts : String → String → List String) (pathExt : Finset String)
    (commands paths searchDirs : List String) (cmd : String) :
    ((search fs lib fuel exts pathExt false commands paths searchDirs).result.paths cmd).card
      ≤ 1 := by
  have h0 : AtMostOne ⟨newResultMap, []⟩ := by
    intro k
    simp [resultMap.paths, newResultMap]
  have h1 := flatPhase_atMostOne fs lib exts commands paths h0
  have h2 : AtMostOne (search fs lib fuel exts pathExt false commands paths searchDirs) := by
    unfold search
    simp only []
    split
    · unfold recursivePhase
      refine foldl_invariant AtMostOne _ ?_ searchDirs _ h1
      intro st dir hst
      exact walk_invariant fs lib _ AtMostOne
        (fun t p arg ht => visitor_atMostOne lib pathExt commands t p arg ht) fuel dir st hst
    · exact h1
  exact h2 cmd

/-- For a list of commands without repetition and a result map whose keys are
among them, the test `len(result) == len(commands)` holds exactly when every
command has a match. -/
theorem len_eq_iff_all_found (r : resultMap) (commands : List String) (hnd : commands.Nodup)
    (hkeys : ∀ k, r.hasKey k = true → k ∈ commands) :
    r.len = commands.length ↔ ∀ cmd ∈ commands, r.hasKey cmd = true := by
  have hk : ∀ k, r.hasKey k = true ↔ k ∈ r.keys := by
    intro k
    simp [resultMap.hasKey, Finmap.mem_keys, Finmap.lookup_isSome]
  have hsub : r.keys ⊆ commands.toFinset := by
    intro k hkm
    exact List.mem_toFinset.2 (hkeys k ((hk k).2 hkm))
  have hcard : commands.toFinset.card = commands.length := List.toFinset_card_of_nodup hnd
  unfold resultMap.len
  constructor
  · intro h cmd hcmd
    have heq := Finset.eq_of_subset_of_card_le hsub (by rw [hcard, h])
    exact (hk cmd).2 (by rw [heq]; exact List.mem_toFinset.2 hcmd)
  · intro h
    have hsup : commands.toFinset ⊆ r.keys := by
      intro k hkm
      exact (hk k).1 (h k (List.mem_toFinset.1 hkm))
    rw [← hcard, Finset.Subset.antisymm hsub hsup]

/-- C8 (failing input): the command `ls` is named twice and found in the flat
directory `/bin`. Every queried command has a match, yet the test of line 90 sends
the search into the recursive phase, and the walk of `/opt` visits the whole tree
without an abort. -/
theorem duplicate_command_never_satisfied :
    (∀ cmd ∈ ["ls", "ls"],
      (flatPhase searchFs slashLib defaultOrder false ["ls", "ls"] ["/bin"]
        ⟨newResultMap, []⟩).result.hasKey cmd = true) ∧
    entersRecursivePhase false ["ls", "ls"]
      (flatPhase searchFs slashLib defaultOrder false ["ls", "ls"] ["/bin"]
        ⟨newResultMap, []⟩) = true ∧
    (walk searchFs slashLib 5 "/opt"
      (traced (visitor slashLib defaultPathExt false ["ls", "ls"]))
      (flatPhase searchFs slashLib defaultOrder false ["ls", "ls"] ["/bin"]
        ⟨newResultMap, []⟩, [])).2.2.map Call.path =
      ["/opt", "/opt/ls.exe", "/opt/notes.txt", "/opt/sub", "/opt/sub/LS.EXE"] := by
  decide

/-! ### Traced runs and plain runs -/

theorem walkChildren_traced {σ : Type} (lib : PathLib) (w : WalkFunc σ) (cur : FileInfo)
    (infos : List OsFileInfo) :
    ∀ (stack : List FileInfo) (s : σ) (log : List Call),
      ((walkChildren lib (traced w) cur infos stack (s, log)).1,
        (walkChildren lib (traced w) cur infos stack (s, log)).2.1,
        (walkChildren lib (traced w) cur infos stack (s, log)).2.2.1) =
      walkChildren lib w cur infos stack s := by
  induction infos with
  | nil => intro stack s log; rfl
  | cons info infos ih =>
    intro stack s log
    simp only [walkChildren]
    by_cases hd : info.isDir = true
    · simp only [hd, if_true]
      exact ih _ s log
    · simp only [hd, Bool.false_eq_true, if_false, traced_apply]
      rcases hr : w s (lib.join cur.Path info.name) (StatResult.ok info) with ⟨r, s1⟩
      cases r with
      | none => exact ih _ s1 _
      | some err =>
        by_cases he : err = GoError.SkipDir
        · simp only [he, ne_eq, not_true_eq_false, if_false]
          exact ih _ s1 _
        · simp only [he, ne_eq, not_false_eq_true, if_true]

theorem walkLoop_traced {σ : Type} (fs : FileSystem) (lib : PathLib) (w : WalkFunc σ) :
    ∀ (fuel : Nat) (stack : List FileInfo) (s : σ) (log : List Call),
      ((walkLoop fs lib (traced w) fuel stack (s, log)).1,
        (walkLoop fs lib (traced w) fuel stack (s, log)).2.1) =
      walkLoop fs lib w fuel stack s := by
  intro fuel
  induction fuel with
  | zero => intro stack s log; cases stack <;> rfl
  | succ fuel ih =>
    intro stack s log
    cases stack with
    | nil => rfl
    | cons cur stack =>
      simp only [walkLoop, traced_apply]
      rcases hr : w s cur.Path (StatResult.ok cur.info) with ⟨r, s1⟩
      cases r with
      | some err =>
        by_cases he : err = GoError.SkipDir
        · simp only [he, ne_eq, not_true_eq_false, if_false]
          exact ih _ s1 _
        · simp only [he, ne_eq, not_false_eq_true, if_true]
      | none =>
        simp only []
        have hc := walkChildren_traced lib w cur (readdir fs cur.Path).1 stack s1
          (log ++ [⟨cur.Path, StatResult.ok cur.info, none⟩])
        rcases hw : walkChildren lib (traced w) cur (readdir fs cur.Path).1 stack
          (s1, log ++ [⟨cur.Path, StatResult.ok cur.info, none⟩]) with ⟨r2, stack2, st2⟩
        rw [hw] at hc
        rw [← hc, hw]
        cases r2 with
        | some err => rfl
        | none => exact ih _ _ _

/-- A traced run is the plain run with a log beside it. -/
theorem walk_traced {σ : Type} (fs : FileSystem) (lib : PathLib) (w : WalkFunc σ)
    (fuel : Nat) (root : String) (s : σ) :
    ((walk fs lib fuel root (traced w) (s, [])).1,
      (walk fs lib fuel root (traced w) (s, [])).2.1) = walk fs lib fuel root w s := by
  unfold walk
  cases fs.lstat root with
  | error err => rfl
  | ok info =>
    by_cases hd : info.isDir = true
    · simp only [hd, Bool.not_true, Bool.false_eq_true, if_false]
      exact walkLoop_traced fs lib w fuel _ s []
    · simp only [hd, Bool.not_false, if_true]
      rfl

/-- The state a run ends with is the state reached by replaying the logged calls. -/
theorem walk_replay {σ : Type} (fs : FileSystem) (lib : PathLib) (w : WalkFunc σ)
    (fuel : Nat) (root : String) (s : σ) :
    (walk fs lib fuel root w s).2 =
      (walk fs lib fuel root (traced w) (s, [])).2.2.foldl
        (fun t c => (w t c.path c.arg).2) s := by
  have h := walk_invariant fs lib (traced w)
    (fun st => st.1 = st.2.foldl (fun t c => (w t c.path c.arg).2) s) (by
      intro t p arg ht
      rw [traced_apply]
      simp only [List.foldl_append, List.foldl_cons, List.foldl_nil]
      rw [← ht]) fuel root (s, []) rfl
  rw [← walk_traced fs lib w fuel root s]
  exact h

/-- The entries a run visits when the visitor continues on every entry: those of
the tree of the root. -/
theorem walk_entries {σ : Type} (fs : FileSystem) (lib : PathLib) (d : Nat) (root : String)
    (w : WalkFunc σ) (s : σ) (fuel : Nat)
    (hfin : (fs.lstat root).isDir = true →
      finiteBelow fs lib d root = true ∧ dirCount fs lib d root ≤ fuel)
    (hcont : ∀ s p info, (w s p (StatResult.ok info)).1 = none) :
    ((walk fs lib fuel root (traced w) (s, [])).2.2.filterMap Call.entry).Perm
      (tree fs lib d root) := by
  cases hl : fs.lstat root with
  | error err =>
    simp [walk, tree, hl, traced_apply, Call.entry]
  | ok info =>
    by_cases hd : info.isDir = true
    · have hf := hfin (by simp [hl, StatResult.isDir, hd])
      have hna : NeverAborts w := fun s p i => Or.inl (hcont s p i)
      obtain ⟨_, h2⟩ := walk_visits fs lib d root info w s fuel hl hd hf.1 hna hf.2
      have hres := walk_log_all fs lib w (fun c => c.arg.isDir = true → c.result = none)
        (fun s p arg => by
          cases arg with
          | error err => intro h; simp [StatResult.isDir] at h
          | ok i => intro _; exact hcont s p i) fuel root s
      have hp := h2.perm (bounded_root fs lib d root info hd hf.1) (fun c hc => by
        cases hcd : c.arg.isDir with
        | false => simp [Call.skipsDir, hcd]
        | true => simp [Call.skipsDir, hres c hc hcd])
      rw [tree_eq_forest fs lib d root info hl hd]
      have h3 := hp.filterMap id
      simpa [List.filterMap_map] using h3
    · have hd2 : info.isDir = false := by simpa using hd
      simp [walk, tree, hl, hd2, traced_apply, Call.entry]

/-! ### The search in show-all mode -/

theorem foldl_adds {α : Type} (f : MainState → α → MainState)
    (found : α → String → String → Prop) (h : ∀ a, Adds (fun st => f st a) (found a))
    (l : List α) : Adds (fun st => l.foldl f st) (fun k x => ∃ a ∈ l, found a k x) := by
  induction l with
  | nil => intro st k x; simp
  | cons a l ih =>
    intro st k x
    simp only [List.foldl_cons]
    rw [ih (f st a) k x, h a st k x]
    simp only [List.mem_cons, exists_eq_or_imp, or_assoc]

theorem record_adds (cmd name : String) :
    Adds (fun st => record st cmd name) (fun k x => k = cmd ∧ x = name) := by
  intro st k x
  simp only [record_result, resultMap.paths_add]
  by_cases hk : k = cmd
  · subst hk; simp [or_comm]
  · simp [hk]

theorem probe_adds (fs : FileSystem) (cmd name : String) :
    Adds (probe fs true cmd name)
      (fun k x => k = cmd ∧ x = name ∧ isFile fs name = true) := by
  intro st k x
  unfold probe
  by_cases hf : isFile fs name = true
  · simp only [Bool.or_true, Bool.true_and, hf, if_true]
    rw [record_adds cmd name st k x]
    simp
  · simp [hf]

theorem flatCommand_adds (fs : FileSystem) (lib : PathLib) (exts : List String)
    (p cmd : String) :
    Adds (flatCommand fs lib exts true p cmd)
      (fun k x => k = cmd ∧ isFile fs x = true ∧
        if (lib.ext cmd).length = 0 then ∃ ext ∈ exts, x = lib.join p cmd ++ ext
        else x = lib.join p cmd) := by
  intro st k x
  unfold flatCommand
  simp only [Bool.or_true, if_true]
  by_cases he : (lib.ext cmd).length = 0
  · simp only [he, if_true]
    rw [foldl_adds (fun st ext => probe fs true cmd (lib.join p cmd ++ ext) st)
      (fun ext k x => k = cmd ∧ x = lib.join p cmd ++ ext ∧
        isFile fs (lib.join p cmd ++ ext) = true)
      (fun ext => probe_adds fs cmd _) exts st k x]
    refine or_congr Iff.rfl ?_
    constructor
    · rintro ⟨ext, hext, hk, hx, hf⟩
      exact ⟨hk, hx ▸ hf, ext, hext, hx⟩
    · rintro ⟨hk, hf, ext, hext, hx⟩
      exact ⟨ext, hext, hk, hx, hx ▸ hf⟩
  · simp only [he, if_false]
    rw [probe_adds fs cmd _ st k x]
    refine or_congr Iff.rfl ?_
    constructor
    · rintro ⟨hk, hx, hf⟩
      exact ⟨hk, hx ▸ hf, hx⟩
    · rintro ⟨hk, hf, hx⟩
      exact ⟨hk, hx, hx ▸ hf⟩

theorem flatPhase_adds (fs : FileSystem) (lib : PathLib) (exts : String → String → List String)
    (pathExt : Finset String) (hexts : ∀ p c e, e ∈ exts p c ↔ e ∈ pathExt)
    (commands paths : List String) :
    Adds (flatPhase fs lib exts true commands paths)
      (fun k x => k ∈ commands ∧ FlatMatch fs lib pathExt paths k x) := by
  intro st k x
  unfold flatPhase
  rw [foldl_adds _ _ (fun p => foldl_adds
    (fun st cmd => flatCommand fs lib (exts p cmd) true p cmd st) _
    (fun cmd => flatCommand_adds fs lib (exts p cmd) p cmd) commands) paths st k x]
  refine or_congr Iff.rfl ?_
  unfold FlatMatch
  constructor
  · rintro ⟨p, hp, cmd, hcmd, hk, hf, hrest⟩
    subst hk
    refine ⟨hcmd, p, hp, hf, ?_⟩
    by_cases he : (lib.ext k).length = 0
    · rw [if_pos he] at hrest ⊢
      obtain ⟨ext, hext, hx⟩ := hrest
      exact ⟨ext, (hexts p k ext).1 hext, hx⟩
    · rw [if_neg he] at hrest ⊢
      exact hrest
  · rintro ⟨hcmd, p, hp, hf, hrest⟩
    refine ⟨p, hp, k, hcmd, rfl, hf, ?_⟩
    by_cases he : (lib.ext k).length = 0
    · rw [if_pos he] at hrest ⊢
      obtain ⟨ext, hext, hx⟩ := hrest
      exact ⟨ext, (hexts p k ext).2 hext, hx⟩
    · rw [if_neg he] at hrest ⊢
      exact hrest

theorem visitCommand_adds (lib : PathLib) (pathExt : Finset String) (p cmd : String) :
    Adds (visitCommand lib pathExt true p cmd)
      (fun k x => k = cmd ∧ x = p ∧ traversalMatch lib pathExt cmd p = true) := by
  intro st k x
  unfold visitCommand
  simp only [Bool.or_true, if_true]
  by_cases hm : traversalMatch lib pathExt cmd p = true
  · simp only [hm, if_true]
    rw [record_adds cmd p st k x]
    simp
  · simp [hm]

theorem visitCommands_showAll (lib : PathLib) (pathExt : Finset String) (total : Nat)
    (p : String) (cmds : List String) :
    ∀ st, visitCommands lib pathExt true total p cmds st =
      (false, cmds.foldl (fun st cmd => visitCommand lib pathExt true p cmd st) st) := by
  induction cmds with
  | nil => intro st; rfl
  | cons cmd cmds ih =>
    intro st
    rw [visitCommands]
    simp only [Bool.not_true, Bool.false_and, Bool.false_eq_true, if_false, List.foldl_cons]
    exact ih _

theorem visitor_showAll (lib : PathLib) (pathExt : Finset String) (commands : List String)
    (st : MainState) (p : String) (info : OsFileInfo) :
    visitor lib pathExt true commands st p (StatResult.ok info) =
      (none, if info.isDir then st
        else commands.foldl (fun st cmd => visitCommand lib pathExt true p cmd st) st) := by
  unfold visitor
  by_cases hd : info.isDir = true
  · simp [hd]
  · simp [hd, visitCommands_showAll]

theorem visitor_adds (lib : PathLib) (pathExt : Finset String) (commands : List String)
    (c : Call) :
    Adds (fun st => (visitor lib pathExt true commands st c.path c.arg).2)
      (fun k x => ∃ e, c.entry = some e ∧ e.info.isDir = false ∧ e.Path = x ∧
        k ∈ commands ∧ traversalMatch lib pathExt k x = true) := by
  intro st k x
  cases harg : c.arg with
  | error err => simp [visitor, Call.entry, harg]
  | ok info =>
    simp only [visitor_showAll, Call.entry, harg, Option.some.injEq]
    by_cases hd : info.isDir = true
    · simp only [hd, if_true, iff_self_or]
      rintro ⟨e, rfl, he, _⟩
      simp [hd] at he
    · have hd2 : info.isDir = false := by simpa using hd
      simp only [hd2, Bool.false_eq_true, if_false]
      rw [foldl_adds _ _ (fun cmd => visitCommand_adds lib pathExt c.path cmd) commands st k x]
      refine or_congr Iff.rfl ?_
      constructor
      · rintro ⟨cmd, hcmd, hk, hx, hm⟩
        subst hk hx
        exact ⟨_, rfl, hd2, rfl, hcmd, hm⟩
      · rintro ⟨e, rfl, _, hx, hcmd, hm⟩
        simp only at hx
        subst hx
        exact ⟨k, hcmd, rfl, rfl, hm⟩

theorem walk_adds (fs : FileSystem) (lib : PathLib) (d fuel : Nat) (pathExt : Finset String)
    (commands : List String) (dir : String)
    (hfin : (fs.lstat dir).isDir = true →
      finiteBelow fs lib d dir = true ∧ dirCount fs lib d dir ≤ fuel) :
    Adds (fun st => (walk fs lib fuel dir (visitor lib pathExt true commands) st).2)
      (fun k x => k ∈ commands ∧ ∃ e ∈ tree fs lib d dir,
        e.info.isDir = false ∧ e.Path = x ∧ traversalMatch lib pathExt k x = true) := by
  intro st k x
  simp only []
  rw [walk_replay]
  rw [foldl_adds (fun t c => (visitor lib pathExt true commands t c.path c.arg).2) _
    (fun c => visitor_adds lib pathExt commands c) _ st k x]
  refine or_congr Iff.rfl ?_
  have hperm := walk_entries fs lib d dir (visitor lib pathExt true commands) st fuel hfin
    (fun s p info => by rw [visitor_showAll])
  constructor
  · rintro ⟨c, hc, e, he, hd, hx, hcmd, hm⟩
    refine ⟨hcmd, e, hperm.subset ?_, hd, hx, hm⟩
    exact List.mem_filterMap.2 ⟨c, hc, he⟩
  · rintro ⟨hcmd, e, he, hd, hx, hm⟩
    obtain ⟨c, hc, hce⟩ := List.mem_filterMap.1 (hperm.symm.subset he)
    exact ⟨c, hc, e, hce, hd, hx, hcmd, hm⟩

/-- C9: with show-all enabled, on finite trees and with enough fuel for them, the
paths recorded for a command at the end of the search are exactly the matching
paths: the existing files `dir/command+ext` for every flat directory and recognized
extension (`dir/command` when the command has an extension), and the non-directory
entries of the tree of every recursive directory that satisfy the match rule of
the visitor. -/
theorem search_showAll_records_all (fs : FileSystem) (lib : PathLib) (d fuel : Nat)
    (exts : String → String → List String) (pathExt : Finset String)
    (commands paths searchDirs : List String)
    (hexts : ∀ p c e, e ∈ exts p c ↔ e ∈ pathExt)
    (hfin : ∀ dir ∈ searchDirs, (fs.lstat dir).isDir = true →
      finiteBelow fs lib d dir = true ∧ dirCount fs lib d dir ≤ fuel)
    (cmd x : String) :
    x ∈ (search fs lib fuel exts pathExt true commands paths searchDirs).result.paths cmd ↔
      cmd ∈ commands ∧
        (FlatMatch fs lib pathExt paths cmd x ∨ TreeMatch fs lib d pathExt searchDirs cmd x) := by
  have hflat := flatPhase_adds fs lib exts pathExt hexts commands paths ⟨newResultMap, []⟩ cmd x
  have hrec : ∀ (dirs : List String), (∀ dir ∈ dirs, dir ∈ searchDirs) → ∀ st,
      (x ∈ (recursivePhase fs lib fuel pathExt true commands dirs st).result.paths cmd ↔
        x ∈ st.result.paths cmd ∨
          (cmd ∈ commands ∧ TreeMatch fs lib d pathExt dirs cmd x)) := by
    intro dirs
    induction dirs with
    | nil => intro _ st; simp [recursivePhase, TreeMatch]
    | cons dir dirs ih =>
      intro hsub st
      have h1 := walk_adds fs lib d fuel pathExt commands dir
        (hfin dir (hsub dir (List.mem_cons_self _ _))) st cmd x
      have h2 := ih (fun a ha => hsub a (List.mem_cons_of_mem _ ha))
        (walk fs lib fuel dir (visitor lib pathExt true commands) st).2
      simp only [recursivePhase, List.foldl_cons] at h2 ⊢
      rw [h2, h1]
      simp only [TreeMatch, List.mem_cons, exists_eq_or_imp]
      constructor
      · rintro ((h | ⟨hc, h⟩) | ⟨hc, h⟩)
        · exact Or.inl h
        · exact Or.inr ⟨hc, Or.inl h⟩
        · exact Or.inr ⟨hc, Or.inr h⟩
      · rintro (h | ⟨hc, h | h⟩)
        · exact Or.inl (Or.inl h)
        · exact Or.inl (Or.inr ⟨hc, h⟩)
        · exact Or.inr ⟨hc, h⟩
  unfold search
  simp only [entersRecursivePhase, Bool.true_or, if_true]
  rw [hrec searchDirs (fun _ h => h), hflat]
  have h0 : x ∉ (⟨newResultMap, []⟩ : MainState).result.paths cmd := by
    simp [resultMap.paths, newResultMap]
  constructor
  · rintro ((h | ⟨hc, h⟩) | ⟨hc, h⟩)
    · exact (h0 h).elim
    · exact ⟨hc, Or.inl h⟩
    · exact ⟨hc, Or.inr h⟩
  · rintro ⟨hc, h | h⟩
    · exact Or.inl (Or.inr ⟨hc, h⟩)
    · exact Or.inr ⟨hc, h⟩

theorem search_showAll_records_all_witness :
    (search searchFs slashLib 5 defaultOrder defaultPathExt true ["ls"]
        ["/bin"] ["/opt", "/none"]).result.paths "ls" =
      {"/bin/ls.exe", "/bin/ls.bat", "/opt/ls.exe", "/opt/sub/LS.EXE"} ∧
    ("/opt/sub/LS.EXE" ∈ (search searchFs slashLib 5 defaultOrder defaultPathExt true ["ls"]
        ["/bin"] ["/opt", "/none"]).result.paths "ls" ↔
      "ls" ∈ ["ls"] ∧
        (FlatMatch searchFs slashLib defaultPathExt ["/bin"] "ls" "/opt/sub/LS.EXE" ∨
          TreeMatch searchFs slashLib 3 defaultPathExt ["/opt", "/none"] "ls"
            "/opt/sub/LS.EXE")) :=
  ⟨by decide,
    search_showAll_records_all searchFs slashLib 3 5 defaultOrder defaultPathExt ["ls"]
      ["/bin"] ["/opt", "/none"] (fun _ _ e => by simp [defaultOrder, defaultPathExt])
      (by decide) "ls" "/opt/sub/LS.EXE"⟩

/-! ## Theorems: the result accumulator, reachable maps and order -/

theorem resultMap.lookup_add (r : resultMap) (k v k2 : String) :
    (r.add k v).2.lookup k2 =
      if k2 = k then some (insert v (r.paths k)) else r.lookup k2 := by
  unfold resultMap.add resultMap.paths
  by_cases hk : k2 = k
  · subst hk
    cases hl : r.lookup k2 with
    | none => simp
    | some values =>
      by_cases hv : v ∈ values
      · simp [hv, hl]
      · simp [hv]
  · cases hl : r.lookup k with
    | none => simp [hk, Finmap.lookup_insert_of_ne]
    | some values =>
      by_cases hv : v ∈ values
      · simp [hv, hk]
      · simp [hv, hk, Finmap.lookup_insert_of_ne]

theorem resultMap.hasKey_add (r : resultMap) (k v k2 : String) :
    (r.add k v).2.hasKey k2 = (decide (k2 = k) || r.hasKey k2) := by
  unfold resultMap.hasKey
  rw [resultMap.lookup_add]
  by_cases hk : k2 = k <;> simp [hk]

theorem addAll_aux (ops : List (String × String)) :
    ∀ r : resultMap, (∀ k values, r.lookup k = some values → values.Nonempty) →
      (∀ k, (ops.foldl (fun r kv => (r.add kv.1 kv.2).2) r).hasKey k = true ↔
        r.hasKey k = true ∨ ∃ v, (k, v) ∈ ops) ∧
      ∀ k values, (ops.foldl (fun r kv => (r.add kv.1 kv.2).2) r).lookup k = some values →
        values.Nonempty := by
  induction ops with
  | nil => intro r hr; exact ⟨fun k => by simp, hr⟩
  | cons kv ops ih =>
    intro r hr
    have hr2 : ∀ k values, (r.add kv.1 kv.2).2.lookup k = some values → values.Nonempty := by
      intro k values h
      rw [resultMap.lookup_add] at h
      by_cases hk : k = kv.1
      · rw [if_pos hk] at h
        simp only [Option.some.injEq] at h
        rw [← h]
        exact Finset.insert_nonempty _ _
      · rw [if_neg hk] at h
        exact hr k values h
    obtain ⟨h1, h2⟩ := ih (r.add kv.1 kv.2).2 hr2
    refine ⟨?_, h2⟩
    intro k
    simp only [List.foldl_cons]
    rw [h1 k, resultMap.hasKey_add]
    simp only [Bool.or_eq_true, decide_eq_true_eq, List.mem_cons]
    constructor
    · rintro ((h | h) | ⟨v, h⟩)
      · exact Or.inr ⟨kv.2, Or.inl (by rw [h])⟩
      · exact Or.inl h
      · exact Or.inr ⟨v, Or.inr h⟩
    · rintro (h | ⟨v, h | h⟩)
      · exact Or.inl (Or.inr h)
      · exact Or.inl (Or.inl (by rw [← h]))
      · exact Or.inr ⟨v, h⟩

/-- C19: a result map reached from `newResultMap()` by calls of `add` has a key
exactly for the commands under which a path was added, and no key with an empty
set of paths; `add` never removes a key or a path, and `add(k, v)` leaves the
record of every other key as it was. -/
theorem resultMap.reachable_spec (ops : List (String × String)) :
    (∀ k, (addAll ops).hasKey k = true ↔ ∃ v, (k, v) ∈ ops) ∧
    (∀ k values, (addAll ops).lookup k = some values → values.Nonempty) ∧
    (∀ (r : resultMap) (k v k2 : String), r.hasKey k2 = true →
      (r.add k v).2.hasKey k2 = true) ∧
    (∀ (r : resultMap) (k v k2 : String), r.paths k2 ⊆ (r.add k v).2.paths k2) ∧
    ∀ (r : resultMap) (k v k2 : String), k2 ≠ k → (r.add k v).2.lookup k2 = r.lookup k2 := by
  have h0 : ∀ k values, newResultMap.lookup k = some values → values.Nonempty := by
    intro k values h
    simp [newResultMap] at h
  obtain ⟨h1, h2⟩ := addAll_aux ops newResultMap h0
  refine ⟨?_, h2, ?_, ?_, ?_⟩
  · intro k
    have := h1 k
    simpa [addAll, resultMap.hasKey, newResultMap] using this
  · intro r k v k2 h
    rw [resultMap.hasKey_add, h, Bool.or_true]
  · intro r k v k2
    rw [resultMap.paths_add]
    by_cases hk : k2 = k
    · subst hk
      simp only [if_true]
      exact Finset.subset_insert _ _
    · simp [hk]
  · intro r k v k2 hk
    rw [resultMap.lookup_add, if_neg hk]

theorem resultMap.add_swap (r : resultMap) (k p1 p2 : String) :
    ((r.add k p1).2.add k p2).2 = ((r.add k p2).2.add k p1).2 := by
  refine Finmap.ext_lookup ?_
  intro k2
  simp only [resultMap.lookup_add, resultMap.paths_add]
  by_cases hk : k2 = k
  · simp only [hk, if_true, Option.some.injEq]
    exact Finset.Insert.comm _ _ _
  · simp only [hk, if_false]

/-- C14 (counterexample): adding `/b/ls.exe` and then `/a/ls.exe` gives the very map
that adding them in the other order gives, so no enumeration of the record (or dump
of the map) tells which path was added first. -/
theorem insertion_order_not_kept :
    ((newResultMap.add "ls" "/b/ls.exe").2.add "ls" "/a/ls.exe").2 =
        ((newResultMap.add "ls" "/a/ls.exe").2.add "ls" "/b/ls.exe").2 ∧
      ¬ ∃ enum : resultMap → String → List String,
        ∀ (r : resultMap) (k p1 p2 : String), p1 ≠ p2 →
          ListedBefore p1 p2 (enum ((r.add k p1).2.add k p2).2 k) := by
  refine ⟨resultMap.add_swap _ _ _ _, ?_⟩
  rintro ⟨enum, h⟩
  have h1 := (h newResultMap "ls" "/a/ls.exe" "/b/ls.exe" (by decide)).2
  have h2 := (h newResultMap "ls" "/b/ls.exe" "/a/ls.exe" (by decide)).2
  rw [resultMap.add_swap] at h2
  exact lt_asymm h1 h2

/-- C14 (amended): the record of a command is a set without order: after two adds
it holds the two paths beside the earlier ones, and the map reached by adding `p1`
and then `p2` is the map reached by adding `p2` and then `p1`. -/
theorem resultMap.add_order_irrelevant (r : resultMap) (k p1 p2 : String) :
    ((r.add k p1).2.add k p2).2 = ((r.add k p2).2.add k p1).2 ∧
      ((r.add k p1).2.add k p2).2.paths k = insert p1 (insert p2 (r.paths k)) := by
  refine ⟨resultMap.add_swap r k p1 p2, ?_⟩
  simp only [resultMap.paths_add, if_true]
  exact Finset.Insert.comm _ _ _

/-! ## Theorems: `filepath.SkipDir` returned for a non-directory -/

theorem walkChildren_skipAsContinue {σ : Type} (lib : PathLib) (w : WalkFunc σ)
    (cur : FileInfo) (infos : List OsFileInfo) :
    ∀ (stack : List FileInfo) (s : σ), (∀ fr ∈ stack, fr.info.isDir = true) →
      walkChildren lib (skipAsContinueOnFiles w) cur infos stack s =
          walkChildren lib w cur infos stack s ∧
        ∀ fr ∈ (walkChildren lib w cur infos stack s).2.1, fr.info.isDir = true := by
  induction infos with
  | nil => intro stack s h; exact ⟨rfl, h⟩
  | cons info infos ih =>
    intro stack s h
    simp only [walkChildren]
    by_cases hd : info.isDir = true
    · simp only [hd, if_true]
      refine ih _ s ?_
      intro fr hfr
      rcases List.mem_cons.1 hfr with rfl | hfr
      · exact hd
      · exact h fr hfr
    · have hd2 : info.isDir = false := by simpa using hd
      simp only [hd2, Bool.false_eq_true, if_false, skipAsContinueOnFiles, StatResult.isDir,
        Bool.not_false, Bool.true_and, decide_eq_true_eq]
      rcases hr : w s (lib.join cur.Path info.name) (StatResult.ok info) with ⟨r, s1⟩
      cases r with
      | none => simpa using ih stack s1 h
      | some err =>
        by_cases he : err = GoError.SkipDir
        · subst he
          simpa using ih stack s1 h
        · simp only [Option.some.injEq, he, if_false, ne_eq, not_false_eq_true, if_true]
          exact ⟨trivial, h⟩

theorem walkLoop_skipAsContinue {σ : Type} (fs : FileSystem) (lib : PathLib) (w : WalkFunc σ) :
    ∀ (fuel : Nat) (stack : List FileInfo) (s : σ), (∀ fr ∈ stack, fr.info.isDir = true) →
      walkLoop fs lib (skipAsContinueOnFiles w) fuel stack s = walkLoop fs lib w fuel stack s := by
  intro fuel
  induction fuel with
  | zero => intro stack s _; cases stack <;> rfl
  | succ fuel ih =>
    intro stack s h
    cases stack with
    | nil => rfl
    | cons cur stack =>
      have hcur := h cur (List.mem_cons_self _ _)
      have hst : ∀ fr ∈ stack, fr.info.isDir = true := fun fr hfr =>
        h fr (List.mem_cons_of_mem _ hfr)
      have hcall : skipAsContinueOnFiles w s cur.Path (StatResult.ok cur.info) =
          w s cur.Path (StatResult.ok cur.info) := by
        simp [skipAsContinueOnFiles, StatResult.isDir, hcur]
      rw [walkLoop, walkLoop, hcall]
      rcases hr : w s cur.Path (StatResult.ok cur.info) with ⟨r, s1⟩
      cases r with
      | some err =>
        by_cases he : err = GoError.SkipDir
        · simp only [he, ne_eq, not_true_eq_false, if_false]
          exact ih stack s1 hst
        · simp only [he, ne_eq, not_false_eq_true, if_true]
      | none =>
        simp only []
        obtain ⟨h1, h2⟩ := walkChildren_skipAsContinue lib w cur (readdir fs cur.Path).1
          stack s1 hst
        rw [h1]
        rcases hw : walkChildren lib w cur (readdir fs cur.Path).1 stack s1 with ⟨r2, stack2, s2⟩
        rw [hw] at h2
        cases r2 with
        | some err => rfl
        | none => exact ih stack2 s2 h2

theorem walkChildren_not_skipDir {σ : Type} (lib : PathLib) (w : WalkFunc σ)
    (cur : FileInfo) (infos : List OsFileInfo) :
    ∀ (stack : List FileInfo) (s : σ),
      (walkChildren lib w cur infos stack s).1 ≠ some GoError.SkipDir := by
  induction infos with
  | nil => intro stack s; simp [walkChildren]
  | cons info infos ih =>
    intro stack s
    simp only [walkChildren]
    by_cases hd : info.isDir = true
    · simp only [hd, if_true]
      exact ih _ s
    · simp only [hd, Bool.false_eq_true, if_false]
      rcases hr : w s (lib.join cur.Path info.name) (StatResult.ok info) with ⟨r, s1⟩
      cases r with
      | none => exact ih stack s1
      | some err =>
        by_cases he : err = GoError.SkipDir
        · simp only [he, ne_eq, not_true_eq_false, if_false]
          exact ih stack s1
        · simp only [he, ne_eq, not_false_eq_true, if_true]
          simpa using he

theorem walkLoop_not_skipDir {σ : Type} (fs : FileSystem) (lib : PathLib) (w : WalkFunc σ) :
    ∀ (fuel : Nat) (stack : List FileInfo) (s : σ),
      (walkLoop fs lib w fuel stack s).1 ≠ Outcome.returned (some GoError.SkipDir) := by
  intro fuel
  induction fuel with
  | zero => intro stack s; cases stack <;> simp [walkLoop]
  | succ fuel ih =>
    intro stack s
    cases stack with
    | nil => simp [walkLoop]
    | cons cur stack =>
      rw [walkLoop]
      rcases hr : w s cur.Path (StatResult.ok cur.info) with ⟨r, s1⟩
      cases r with
      | some err =>
        by_cases he : err = GoError.SkipDir
        · simp only [he, ne_eq, not_true_eq_false, if_false]
          exact ih stack s1
        · simp only [he, ne_eq, not_false_eq_true, if_true]
          simpa using he
      | none =>
        simp only []
        have hc := walkChildren_not_skipDir lib w cur (readdir fs cur.Path).1 stack s1
        rcases hw : walkChildren lib w cur (readdir fs cur.Path).1 stack s1 with ⟨r2, stack2, s2⟩
        rw [hw] at hc
        cases r2 with
        | some err => simpa using hc
        | none => exact ih stack2 s2

/-- C20: when the root is a directory, `filepath.SkipDir` returned by the visitor
for a non-directory child counts as `nil`: the run of `walk` is the run with the
visitor that returns `nil` in its place (the other children are visited or pushed
just the same), and `walk` never returns `filepath.SkipDir`. -/
theorem walk_skipDir_on_file (σ : Type) (fs : FileSystem) (lib : PathLib) (fuel : Nat)
    (root : String) (w : WalkFunc σ) (s : σ) (hroot : (fs.lstat root).isDir = true) :
    walk fs lib fuel root w s = walk fs lib fuel root (skipAsContinueOnFiles w) s ∧
      (walk fs lib fuel root w s).1 ≠ Outcome.returned (some GoError.SkipDir) := by
  unfold walk
  cases hl : fs.lstat root with
  | error err => simp [hl, StatResult.isDir] at hroot
  | ok info =>
    have hd : info.isDir = true := by simpa [hl, StatResult.isDir] using hroot
    simp only [hd, Bool.not_true, Bool.false_eq_true, if_false]
    refine ⟨(walkLoop_skipAsContinue fs lib w fuel _ s ?_).symm, walkLoop_not_skipDir fs lib w fuel _ s⟩
    intro fr hfr
    simp only [List.mem_singleton] at hfr
    subst hfr
    exact hd

theorem walk_skipDir_on_file_witness :
    (walk demoFs slashLib 4 "/r" (traced (skipAt "/r/a")) ((), [])).2.2.map Call.path =
        ["/r", "/r/a", "/r/e", "/r/e/c", "/r/d", "/r/d/b", "/r/d/dd"] ∧
      (walk demoFs slashLib 4 "/r" (skipAt "/r/a") ()).1 ≠
        Outcome.returned (some GoError.SkipDir) :=
  ⟨by decide, (walk_skipDir_on_file Unit demoFs slashLib 4 "/r" (skipAt "/r/a") ()
    (by decide)).2⟩

/-! ## Theorems: the visitor of the recursive phase -/

theorem resultMap.hasKey_iff_mem_keys (r : resultMap) (k : String) :
    r.hasKey k = true ↔ k ∈ r.keys := by
  simp [resultMap.hasKey, Finmap.mem_keys, Finmap.lookup_isSome]

theorem record_hasKey (st : MainState) (cmd name k : String) :
    (record st cmd name).result.hasKey k = (decide (k = cmd) || st.result.hasKey k) := by
  rw [record_result, resultMap.hasKey_add]

theorem record_paths (st : MainState) (cmd name k : String) :
    (record st cmd name).result.paths k =
      if k = cmd then insert name (st.result.paths cmd) else st.result.paths k := by
  rw [record_result, resultMap.paths_add]

theorem visitCommand_of_no_match (lib : PathLib) (pathExt : Finset String) (showAll : Bool)
    (p cmd : String) (st : MainState) (h : traversalMatch lib pathExt cmd p = false) :
    visitCommand lib pathExt showAll p cmd st = st := by
  unfold visitCommand
  simp [h]

theorem visitCommand_of_found (lib : PathLib) (pathExt : Finset String)
    (p cmd : String) (st : MainState) (h : st.result.hasKey cmd = true) :
    visitCommand lib pathExt false p cmd st = st := by
  unfold visitCommand
  simp [h]

theorem visitCommand_of_wanted (lib : PathLib) (pathExt : Finset String) (showAll : Bool)
    (p cmd : String) (st : MainState) (hrel : st.result.hasKey cmd = false ∨ showAll = true)
    (h : traversalMatch lib pathExt cmd p = true) :
    visitCommand lib pathExt showAll p cmd st = record st cmd p := by
  unfold visitCommand
  rcases hrel with h1 | h1 <;> simp [h1, h]

theorem visitCommand_cases (lib : PathLib) (pathExt : Finset String) (showAll : Bool)
    (p cmd : String) (st : MainState) :
    visitCommand lib pathExt showAll p cmd st = st ∨
      (traversalMatch lib pathExt cmd p = true ∧
        visitCommand lib pathExt showAll p cmd st = record st cmd p) := by
  unfold visitCommand
  simp only []
  split
  · split
    · rename_i h
      exact Or.inr ⟨h, rfl⟩
    · exact Or.inl rfl
  · exact Or.inl rfl

theorem visitCommands_unchanged (lib : PathLib) (pathExt : Finset String) (showAll : Bool)
    (total : Nat) (p : String) (cmds : List String) (st : MainState)
    (h : ∀ cmd ∈ cmds, visitCommand lib pathExt showAll p cmd st = st) :
    (visitCommands lib pathExt showAll total p cmds st).2 = st := by
  induction cmds with
  | nil => rfl
  | cons cmd cmds ih =>
    rw [visitCommands, h cmd (List.mem_cons_self _ _)]
    split
    · rfl
    · exact ih (fun c hc => h c (List.mem_cons_of_mem _ hc))

theorem visitor_snd (lib : PathLib) (pathExt : Finset String) (showAll : Bool)
    (commands : List String) (st : MainState) (p : String) (info : OsFileInfo)
    (hfile : info.isDir = false) :
    (visitor lib pathExt showAll commands st p (StatResult.ok info)).2 =
      (visitCommands lib pathExt showAll commands.length p commands st).2 := by
  unfold visitor
  simp only [hfile, Bool.false_eq_true, if_false]
  rcases visitCommands lib pathExt showAll commands.length p commands st with ⟨b, st1⟩
  cases b with
  | true => rfl
  | false =>
    simp only []
    split <;> rfl

/-- C16: the visitor records nothing (it leaves the result map and the output as
they are) when it is called on a directory or on a path whose lowered extension
is not a key of `pathExt`, whatever the commands are, also a command with an
extension that is the name of the file; the flat phase, on the contrary, records
`dir/cmd` for a wanted command with an extension as soon as it is a file, without
looking at `pathExt`. -/
theorem visitor_ignores_unrecognized (lib : PathLib) (pathExt : Finset String)
    (showAll : Bool) (commands : List String) (st : MainState) (p : String)
    (info : OsFileInfo)
    (h : info.isDir = true ∨ lib.toLower (lib.ext p) ∉ pathExt) :
    (visitor lib pathExt showAll commands st p (StatResult.ok info)).2 = st ∧
      ∀ (fs : FileSystem) (exts : List String) (dir cmd : String),
        (lib.ext cmd).length ≠ 0 → (st.result.hasKey cmd = false ∨ showAll = true) →
        isFile fs (lib.join dir cmd) = true →
        lib.join dir cmd ∈ (flatCommand fs lib exts showAll dir cmd st).result.paths cmd := by
  constructor
  · by_cases hd : info.isDir = true
    · simp [visitor, hd]
    · have hd2 : info.isDir = false := by simpa using hd
      have hext : lib.toLower (lib.ext p) ∉ pathExt := h.resolve_left hd
      rw [visitor_snd lib pathExt showAll commands st p info hd2]
      refine visitCommands_unchanged lib pathExt showAll _ p commands st ?_
      intro cmd _
      exact visitCommand_of_no_match lib pathExt showAll p cmd st (by simp [traversalMatch, hext])
  · intro fs exts dir cmd hext hrel hfile
    unfold flatCommand probe
    have hw : (!st.result.hasKey cmd || showAll) = true := by
      rcases hrel with h1 | h1 <;> simp [h1]
    simp only [hw, if_true, hext, if_false, Bool.true_and, hfile]
    rw [record_paths, if_pos rfl]
    exact Finset.mem_insert_self _ _

theorem visitor_ignores_unrecognized_witness :
    (visitor slashLib defaultPathExt false ["notes.txt"] ⟨newResultMap, []⟩ "/opt/notes.txt"
        (StatResult.ok ⟨"notes.txt", false⟩)).2 = ⟨newResultMap, []⟩ ∧
      slashLib.join "/opt" "notes.txt" ∈
        (flatCommand searchFs slashLib [".com", ".exe", ".bat", ".cmd"] false "/opt" "notes.txt"
          ⟨newResultMap, []⟩).result.paths "notes.txt" :=
  ⟨(visitor_ignores_unrecognized slashLib defaultPathExt false ["notes.txt"] ⟨newResultMap, []⟩
      "/opt/notes.txt" ⟨"notes.txt", false⟩ (Or.inr (by decide))).1,
    (visitor_ignores_unrecognized slashLib defaultPathExt false ["notes.txt"] ⟨newResultMap, []⟩
      "/opt/notes.txt" ⟨"notes.txt", false⟩ (Or.inr (by decide))).2 searchFs
      [".com", ".exe", ".bat", ".cmd"] "/opt" "notes.txt" (by decide) (Or.inl (by decide))
      (by decide)⟩

/-- C15 (counterexample): after the flat phase the only command `ls` has a match;
the visitor, called on the directory `/opt`, returns `nil` all the same, and the
walk of `/opt` goes on to a second call. -/
theorem satisfied_walk_goes_on :
    (∀ cmd ∈ ["ls"],
      (flatPhase searchFs slashLib defaultOrder false ["ls"] ["/bin"]
        ⟨newResultMap, []⟩).result.hasKey cmd = true) ∧
    (visitor slashLib defaultPathExt false ["ls"]
      (flatPhase searchFs slashLib defaultOrder false ["ls"] ["/bin"] ⟨newResultMap, []⟩)
      "/opt" (StatResult.ok ⟨"opt", true⟩)).1 = none ∧
    (walk searchFs slashLib 5 "/opt" (traced (visitor slashLib defaultPathExt false ["ls"]))
      (flatPhase searchFs slashLib defaultOrder false ["ls"] ["/bin"] ⟨newResultMap, []⟩,
        [])).2.2 =
      [⟨"/opt", StatResult.ok ⟨"opt", true⟩, none⟩,
        ⟨"/opt/ls.exe", StatResult.ok ⟨"ls.exe", false⟩, some GoError.errFound⟩] := by
  decide

/-- C15 (amended): with show-all disabled and a list of commands without
repetition, a call of the visitor on a non-directory, made while every queried
command has a match, returns `errFound` and records nothing; a call on a directory
returns `nil`, so that a walk goes on until its first non-directory entry. -/
theorem visitor_aborts_when_satisfied (lib : PathLib) (pathExt : Finset String)
    (commands : List String) (st : MainState) (p : String) (info : OsFileInfo)
    (hnd : commands.Nodup) (hkeys : ∀ k, st.result.hasKey k = true → k ∈ commands)
    (hall : ∀ cmd ∈ commands, st.result.hasKey cmd = true) :
    visitor lib pathExt false commands st p (StatResult.ok info) =
      (if info.isDir then none else some GoError.errFound, st) := by
  have hlen : commands.length = st.result.len :=
    ((len_eq_iff_all_found st.result commands hnd hkeys).2 hall).symm
  unfold visitor
  by_cases hd : info.isDir = true
  · simp [hd]
  · have hd2 : info.isDir = false := by simpa using hd
    simp only [hd2, Bool.false_eq_true, if_false]
    cases hc : commands with
    | nil =>
      rw [hc] at hlen
      simp [visitCommands, ← hlen]
    | cons cmd cmds =>
      rw [hc] at hlen hall
      rw [visitCommands, visitCommand_of_found lib pathExt p cmd st (hall cmd (List.mem_cons_self _ _))]
      simp [← hlen]

theorem visitor_aborts_when_satisfied_witness :
    visitor slashLib defaultPathExt false ["ls"]
        (flatPhase searchFs slashLib defaultOrder false ["ls"] ["/bin"] ⟨newResultMap, []⟩)
        "/opt/ls.exe" (StatResult.ok ⟨"ls.exe", false⟩) =
      (if (⟨"ls.exe", false⟩ : OsFileInfo).isDir then none else some GoError.errFound,
        flatPhase searchFs slashLib defaultOrder false ["ls"] ["/bin"] ⟨newResultMap, []⟩) :=
  visitor_aborts_when_satisfied slashLib defaultPathExt ["ls"]
    (flatPhase searchFs slashLib defaultOrder false ["ls"] ["/bin"] ⟨newResultMap, []⟩)
    "/opt/ls.exe" ⟨"ls.exe", false⟩ (by decide)
    (by
      have h : (flatPhase searchFs slashLib defaultOrder false ["ls"] ["/bin"]
          ⟨newResultMap, []⟩).result.keys = {"ls"} := by decide
      intro k hk
      rw [resultMap.hasKey_iff_mem_keys, h] at hk
      simpa using hk)
    (by decide)

theorem visitCommands_paths_le (lib : PathLib) (pathExt : Finset String) (showAll : Bool)
    (total : Nat) (p : String) (k x : String) (cmds : List String) :
    ∀ st : MainState, x ∈ (visitCommands lib pathExt showAll total p cmds st).2.result.paths k →
      x ∈ st.result.paths k ∨ (x = p ∧ traversalMatch lib pathExt k p = true) := by
  induction cmds with
  | nil => intro st h; exact Or.inl h
  | cons cmd cmds ih =>
    intro st h
    rw [visitCommands] at h
    have hstep : x ∈ (visitCommand lib pathExt showAll p cmd st).result.paths k →
        x ∈ st.result.paths k ∨ (x = p ∧ traversalMatch lib pathExt k p = true) := by
      intro hx
      rcases visitCommand_cases lib pathExt showAll p cmd st with h1 | ⟨hm, h1⟩
      · rw [h1] at hx; exact Or.inl hx
      · rw [h1, record_paths] at hx
        by_cases hk : k = cmd
        · subst hk
          rw [if_pos rfl, Finset.mem_insert] at hx
          rcases hx with hx | hx
          · exact Or.inr ⟨hx, hm⟩
          · exact Or.inl hx
        · rw [if_neg hk] at hx; exact Or.inl hx
    split at h
    · exact hstep h
    · rcases ih _ h with h1 | h1
      · exact hstep h1
      · exact Or.inr h1

theorem visitCommand_paths_mono (lib : PathLib) (pathExt : Finset String) (showAll : Bool)
    (p cmd k x : String) (st : MainState) (h : x ∈ st.result.paths k) :
    x ∈ (visitCommand lib pathExt showAll p cmd st).result.paths k := by
  rcases visitCommand_cases lib pathExt showAll p cmd st with h1 | ⟨_, h1⟩
  · rw [h1]; exact h
  · rw [h1, record_paths]
    by_cases hk : k = cmd
    · subst hk
      rw [if_pos rfl]
      exact Finset.mem_insert_of_mem h
    · rw [if_neg hk]; exact h

theorem visitCommands_paths_mono (lib : PathLib) (pathExt : Finset String) (showAll : Bool)
    (total : Nat) (p : String) (k x : String) (cmds : List String) :
    ∀ st : MainState, x ∈ st.result.paths k →
      x ∈ (visitCommands lib pathExt showAll total p cmds st).2.result.paths k := by
  induction cmds with
  | nil => intro st h; exact h
  | cons cmd cmds ih =>
    intro st h
    rw [visitCommands]
    have h1 := visitCommand_paths_mono lib pathExt showAll p cmd k x st h
    split
    · exact h1
    · exact ih _ h1

theorem visitCommand_hasKey_le (lib : PathLib) (pathExt : Finset String) (showAll : Bool)
    (p cmd k : String) (st : MainState)
    (h : (visitCommand lib pathExt showAll p cmd st).result.hasKey k = true) :
    k = cmd ∨ st.result.hasKey k = true := by
  rcases visitCommand_cases lib pathExt showAll p cmd st with h1 | ⟨_, h1⟩
  · rw [h1] at h; exact Or.inr h
  · rw [h1, record_hasKey] at h
    simpa using h

theorem len_lt_of_missing (r : resultMap) (commands : List String) (cmd : String)
    (hcmd : cmd ∈ commands) (hmiss : r.hasKey cmd = false)
    (hkeys : ∀ k, r.hasKey k = true → k ∈ commands) : r.len < commands.length := by
  have hsub : r.keys ⊆ commands.toFinset := by
    intro k hk
    exact List.mem_toFinset.2 (hkeys k ((resultMap.hasKey_iff_mem_keys r k).2 hk))
  have hne : cmd ∉ r.keys := by
    intro hk
    rw [(resultMap.hasKey_iff_mem_keys r cmd).2 hk] at hmiss
    cases hmiss
  have hss : r.keys ⊂ commands.toFinset :=
    (Finset.ssubset_iff_of_subset hsub).2 ⟨cmd, List.mem_toFinset.2 hcmd, hne⟩
  exact lt_of_lt_of_le (Finset.card_lt_card hss) (List.toFinset_card_le commands)

theorem visitCommands_reaches (lib : PathLib) (pathExt : Finset String)
    (commands : List String) (p cmd : String) (hcmd : cmd ∈ commands)
    (hm : traversalMatch lib pathExt cmd p = true) (cmds : List String) :
    ∀ st : MainState, cmd ∈ cmds → (∀ c ∈ cmds, c ∈ commands) →
      st.result.hasKey cmd = false → (∀ k, st.result.hasKey k = true → k ∈ commands) →
      p ∈ (visitCommands lib pathExt false commands.length p cmds st).2.result.paths cmd := by
  induction cmds with
  | nil => intro st h; cases h
  | cons c cmds ih =>
    intro st hmem hsub hmiss hkeys
    rw [visitCommands]
    by_cases hc : c = cmd
    · subst hc
      have h1 : p ∈ (visitCommand lib pathExt false p c st).result.paths c := by
        rw [visitCommand_of_wanted lib pathExt false p c st (Or.inl hmiss) hm, record_paths,
          if_pos rfl]
        exact Finset.mem_insert_self _ _
      split
      · exact h1
      · exact visitCommands_paths_mono lib pathExt false _ p c p cmds _ h1
    · have hmiss1 : (visitCommand lib pathExt false p c st).result.hasKey cmd = false := by
        cases hk : (visitCommand lib pathExt false p c st).result.hasKey cmd with
        | false => rfl
        | true =>
          rcases visitCommand_hasKey_le lib pathExt false p c cmd st hk with h1 | h1
          · exact (hc h1.symm).elim
          · rw [h1] at hmiss; cases hmiss
      have hkeys1 : ∀ k, (visitCommand lib pathExt false p c st).result.hasKey k = true →
          k ∈ commands := by
        intro k hk
        rcases visitCommand_hasKey_le lib pathExt false p c k st hk with h1 | h1
        · rw [h1]; exact hsub c (List.mem_cons_self _ _)
        · exact hkeys k h1
      have hlt := len_lt_of_missing _ commands cmd hcmd hmiss1 hkeys1
      have hmem1 : cmd ∈ cmds := by
        rcases List.mem_cons.1 hmem with h1 | h1
        · exact (hc h1.symm).elim
        · exact h1
      have hcond : (!false && decide (commands.length =
          (visitCommand lib pathExt false p c st).result.len)) = false := by
        simp only [Bool.not_false, Bool.true_and, decide_eq_false_iff_not]
        omega
      rw [hcond]
      simp only [Bool.false_eq_true, if_false]
      exact ih _ hmem1 (fun a ha => hsub a (List.mem_cons_of_mem _ ha)) hmiss1 hkeys1

/-- C11: for a queried command without an extension that is still wanted (it has no
match yet, or show-all is enabled) and a non-directory path `p` passed to the
visitor (in a state whose keys are queried commands), the call adds `p` to the
record of the command exactly when the lowered extension of `p` is a key of
`pathExt` and the lowered base name of `p` is the lowered command followed by the
extension of `p`; nothing else is added to that record. -/
theorem visitor_records_iff (lib : PathLib) (pathExt : Finset String) (showAll : Bool)
    (commands : List String) (st : MainState) (p : String) (info : OsFileInfo) (cmd : String)
    (hfile : info.isDir = false) (hcmd : cmd ∈ commands) (hext : (lib.ext cmd).length = 0)
    (hrel : st.result.hasKey cmd = false ∨ showAll = true)
    (hkeys : ∀ k, st.result.hasKey k = true → k ∈ commands) (x : String) :
    x ∈ (visitor lib pathExt showAll commands st p (StatResult.ok info)).2.result.paths cmd ↔
      x ∈ st.result.paths cmd ∨
        (x = p ∧ lib.toLower (lib.ext p) ∈ pathExt ∧
          lib.toLower (lib.base p) = lib.toLower (cmd ++ lib.ext p)) := by
  have hmatch : traversalMatch lib pathExt cmd p = true ↔
      (lib.toLower (lib.ext p) ∈ pathExt ∧
        lib.toLower (lib.base p) = lib.toLower (cmd ++ lib.ext p)) := by
    simp [traversalMatch, hext]
  rw [visitor_snd lib pathExt showAll commands st p info hfile, ← hmatch]
  constructor
  · exact visitCommands_paths_le lib pathExt showAll _ p cmd x commands st
  · rintro (h | ⟨hx, hm⟩)
    · exact visitCommands_paths_mono lib pathExt showAll _ p cmd x commands st h
    · subst hx
      cases hs : showAll with
      | true =>
        rw [visitCommands_showAll]
        exact (foldl_adds _ _ (fun c => visitCommand_adds lib pathExt x c) commands st cmd x).2
          (Or.inr ⟨cmd, hcmd, rfl, rfl, hm⟩)
      | false =>
        have hmiss : st.result.hasKey cmd = false := by
          rcases hrel with h | h
          · exact h
          · rw [hs] at h; cases h
        exact visitCommands_reaches lib pathExt commands x cmd hcmd hm commands st hcmd
          (fun _ h => h) hmiss hkeys

theorem visitor_records_iff_witness :
    (visitor slashLib defaultPathExt false ["ls"] ⟨newResultMap, []⟩
        "/opt/sub/LS.EXE" (StatResult.ok ⟨"LS.EXE", false⟩)).2.result.paths "ls" =
      {"/opt/sub/LS.EXE"} ∧
    ("/opt/sub/LS.EXE" ∈ (visitor slashLib defaultPathExt false ["ls"] ⟨newResultMap, []⟩
        "/opt/sub/LS.EXE" (StatResult.ok ⟨"LS.EXE", false⟩)).2.result.paths "ls" ↔
      "/opt/sub/LS.EXE" ∈ (⟨newResultMap, []⟩ : MainState).result.paths "ls" ∨
        ("/opt/sub/LS.EXE" = "/opt/sub/LS.EXE" ∧
          slashLib.toLower (slashLib.ext "/opt/sub/LS.EXE") ∈ defaultPathExt ∧
          slashLib.toLower (slashLib.base "/opt/sub/LS.EXE") =
            slashLib.toLower ("ls" ++ slashLib.ext "/opt/sub/LS.EXE"))) :=
  ⟨by decide,
    visitor_records_iff slashLib defaultPathExt false ["ls"] ⟨newResultMap, []⟩
      "/opt/sub/LS.EXE" ⟨"LS.EXE", false⟩ "ls" (by decide) (by decide) (by decide)
      (Or.inl (by decide)) (fun k hk => by simp [resultMap.hasKey, newResultMap] at hk)
      "/opt/sub/LS.EXE"⟩

/-! ## Theorems: commands with an extension -/

theorem probe_paths_le (fs : FileSystem) (showAll : Bool) (cmd name k x : String)
    (st : MainState) (h : x ∈ (probe fs showAll cmd name st).result.paths k) :
    x ∈ st.result.paths k ∨ (k = cmd ∧ x = name) := by
  unfold probe at h
  split at h
  · rw [record_paths] at h
    by_cases hk : k = cmd
    · subst hk
      rw [if_pos rfl, Finset.mem_insert] at h
      rcases h with h | h
      · exact Or.inr ⟨rfl, h⟩
      · exact Or.inl h
    · rw [if_neg hk] at h; exact Or.inl h
  · exact Or.inl h

theorem probe_recordedAll (fs : FileSystem) (showAll : Bool) (cmd : String)
    (good : String → Prop) (c name : String) (hname : c = cmd → good name) {st : MainState}
    (h : RecordedAll cmd good st) : RecordedAll cmd good (probe fs showAll c name st) := by
  intro x hx
  rcases probe_paths_le fs showAll c name cmd x st hx with h1 | ⟨h1, h2⟩
  · exact h x h1
  · rw [h2]; exact hname h1.symm

theorem flatPhase_recordedAll (fs : FileSystem) (lib : PathLib)
    (exts : String → String → List String) (showAll : Bool) (commands paths : List String)
    (cmd : String) (good : String → Prop) (hext : (lib.ext cmd).length ≠ 0)
    (hgood : ∀ dir, good (lib.join dir cmd)) {st : MainState}
    (h : RecordedAll cmd good st) :
    RecordedAll cmd good (flatPhase fs lib exts showAll commands paths st) := by
  unfold flatPhase
  refine foldl_invariant (RecordedAll cmd good) _ ?_ paths st h
  intro st1 p h1
  refine foldl_invariant (RecordedAll cmd good) _ ?_ commands st1 h1
  intro st2 c h2
  unfold flatCommand
  simp only []
  split
  · split
    · rename_i hc0
      refine foldl_invariant (RecordedAll cmd good) _ ?_ _ st2 h2
      intro b a hb
      refine probe_recordedAll fs showAll cmd good c _ ?_ hb
      intro hc
      rw [hc] at hc0
      exact (hext hc0).elim
    · refine probe_recordedAll fs showAll cmd good c _ ?_ h2
      intro hc
      rw [hc]
      exact hgood p
  · exact h2

theorem visitor_recordedAll (lib : PathLib) (pathExt : Finset String) (showAll : Bool)
    (commands : List String) (cmd : String) (good : String → Prop)
    (hgood : ∀ p, traversalMatch lib pathExt cmd p = true → good p)
    (st : MainState) (p : String) (arg : StatResult) (h : RecordedAll cmd good st) :
    RecordedAll cmd good (visitor lib pathExt showAll commands st p arg).2 := by
  cases arg with
  | error err => exact h
  | ok info =>
    by_cases hd : info.isDir = true
    · simpa [visitor, hd] using h
    · have hd2 : info.isDir = false := by simpa using hd
      rw [visitor_snd lib pathExt showAll commands st p info hd2]
      intro x hx
      rcases visitCommands_paths_le lib pathExt showAll _ p cmd x commands st hx with h1 | ⟨h1, h2⟩
      · exact h x h1
      · rw [h1]; exact hgood p h2

theorem search_recordedAll (fs : FileSystem) (lib : PathLib) (fuel : Nat)
    (exts : String → String → List String) (pathExt : Finset String) (showAll : Bool)
    (commands paths searchDirs : List String) (cmd : String) (good : String → Prop)
    (hext : (lib.ext cmd).length ≠ 0) (hflat : ∀ dir, good (lib.join dir cmd))
    (htree : ∀ p, traversalMatch lib pathExt cmd p = true → good p) :
    RecordedAll cmd good
      (search fs lib fuel exts pathExt showAll commands paths searchDirs) := by
  have h0 : RecordedAll cmd good ⟨newResultMap, []⟩ := by
    intro x hx
    simp [resultMap.paths, newResultMap] at hx
  have h1 := flatPhase_recordedAll fs lib exts showAll commands paths cmd good hext hflat h0
  unfold search
  simp only []
  split
  · unfold recursivePhase
    refine foldl_invariant (RecordedAll cmd good) _ ?_ searchDirs _ h1
    intro st dir hst
    exact walk_invariant fs lib _ (RecordedAll cmd good)
      (fun t p arg ht => visitor_recordedAll lib pathExt showAll commands cmd good htree t p arg ht)
      fuel dir st hst
  · exact h1

/-- C12: for a command that has an extension and is a plain file name (the base
name of `dir/cmd` is `cmd`), every path the search records for it, in the flat
phase or in the visitor, has a base name equal to the command when both are
lowered; since lowering keeps the length of a string, the base name is never the
command followed by a further, non-empty extension. -/
theorem search_explicit_extension (fs : FileSystem) (lib : PathLib) (fuel : Nat)
    (exts : String → String → List String) (pathExt : Finset String) (showAll : Bool)
    (commands paths searchDirs : List String) (cmd : String)
    (hext : (lib.ext cmd).length ≠ 0) (hplain : ∀ dir, lib.base (lib.join dir cmd) = cmd)
    (hlen : ∀ s, (lib.toLower s).length = s.length) (x : String)
    (hx : x ∈ (search fs lib fuel exts pathExt showAll commands paths searchDirs).result.paths
      cmd) :
    lib.toLower (lib.base x) = lib.toLower cmd ∧
      ∀ e : String, e ≠ "" → lib.base x ≠ cmd ++ e := by
  have h := search_recordedAll fs lib fuel exts pathExt showAll commands paths searchDirs cmd
    (fun y => lib.toLower (lib.base y) = lib.toLower cmd) hext
    (fun dir => by show lib.toLower (lib.base (lib.join dir cmd)) = lib.toLower cmd; rw [hplain dir])
    (fun p hp => by
      have hne : ¬ (lib.ext cmd).length = 0 := hext
      simp only [traversalMatch, hne, if_false, Bool.and_eq_true, decide_eq_true_eq] at hp
      exact hp.2) x hx
  refine ⟨h, ?_⟩
  intro e he heq
  have h1 := congrArg String.length h
  rw [hlen, hlen, heq, String.length_append] at h1
  have h2 : e.length ≠ 0 := by
    intro h0
    apply he
    have : e.data = [] := List.length_eq_zero.1 h0
    exact String.ext this
  omega

theorem slashLib_base_join (dir : String) : slashLib.base (slashLib.join dir "a.exe") = "a.exe" := by
  show String.mk ((dir ++ "/" ++ "a.exe").data.reverse.takeWhile (fun c => c != '/')).reverse =
    "a.exe"
  simp only [String.data_append, List.reverse_append]
  have h : ∀ l : List Char, List.takeWhile (fun c => c != '/')
      (['a', '.', 'e', 'x', 'e'].reverse ++ (['/'].reverse ++ l)) = ['e', 'x', 'e', '.', 'a'] := by
    intro l
    simp [List.takeWhile]
  rw [h]
  rfl

theorem slashLib_toLower_length (s : String) : (slashLib.toLower s).length = s.length := by
  show (s.data.map Char.toLower).length = s.data.length
  exact List.length_map _ _

theorem search_explicit_extension_witness :
    "/bin/a.exe" ∈ (search extFs slashLib 0 defaultOrder defaultPathExt true ["a.exe"]
        ["/bin"] []).result.paths "a.exe" ∧
      slashLib.toLower (slashLib.base "/bin/a.exe") = slashLib.toLower "a.exe" ∧
      ∀ e : String, e ≠ "" → slashLib.base "/bin/a.exe" ≠ "a.exe" ++ e :=
  ⟨by decide,
    search_explicit_extension extFs slashLib 0 defaultOrder defaultPathExt true ["a.exe"]
      ["/bin"] [] "a.exe" (by decide) slashLib_base_join slashLib_toLower_length "/bin/a.exe"
      (by decide)⟩

/-! ## Theorems: the order of the extensions -/

/-- C18 (counterexample): with show-all disabled, the directory `/bin` holding both
`ls.exe` and `ls.bat`, two orders of the same four extensions leave different paths
recorded for `ls`. -/
theorem flat_outcome_depends_on_order :
    (defaultOrder "/bin" "ls").toFinset = (batFirstOrder "/bin" "ls").toFinset ∧
    (flatPhase searchFs slashLib defaultOrder false ["ls"] ["/bin"]
      ⟨newResultMap, []⟩).result.paths "ls" = {"/bin/ls.exe"} ∧
    (flatPhase searchFs slashLib batFirstOrder false ["ls"] ["/bin"]
      ⟨newResultMap, []⟩).result.paths "ls" = {"/bin/ls.bat"} := by
  decide

/-- C18 (amended): with show-all enabled every extension is tested on its own,
and two orders in which the keys of `pathExt` are enumerated leave the same paths
recorded for every command. -/
theorem flat_showAll_order_irrelevant (fs : FileSystem) (lib : PathLib)
    (exts1 exts2 : String → String → List String) (pathExt : Finset String)
    (commands paths : List String) (st : MainState)
    (h1 : ∀ p c e, e ∈ exts1 p c ↔ e ∈ pathExt) (h2 : ∀ p c e, e ∈ exts2 p c ↔ e ∈ pathExt)
    (cmd : String) :
    (flatPhase fs lib exts1 true commands paths st).result.paths cmd =
      (flatPhase fs lib exts2 true commands paths st).result.paths cmd := by
  ext x
  rw [flatPhase_adds fs lib exts1 pathExt h1 commands paths st cmd x,
    flatPhase_adds fs lib exts2 pathExt h2 commands paths st cmd x]

theorem flat_showAll_order_irrelevant_witness :
    (flatPhase searchFs slashLib defaultOrder true ["ls"] ["/bin"]
        ⟨newResultMap, []⟩).result.paths "ls" = {"/bin/ls.exe", "/bin/ls.bat"} ∧
      (flatPhase searchFs slashLib defaultOrder true ["ls"] ["/bin"]
        ⟨newResultMap, []⟩).result.paths "ls" =
      (flatPhase searchFs slashLib batFirstOrder true ["ls"] ["/bin"]
        ⟨newResultMap, []⟩).result.paths "ls" :=
  ⟨by decide,
    flat_showAll_order_irrelevant searchFs slashLib defaultOrder batFirstOrder defaultPathExt
      ["ls"] ["/bin"] ⟨newResultMap, []⟩
      (fun _ _ e => by simp [defaultOrder, defaultPathExt])
      (fun _ _ e => by
        simp only [batFirstOrder, defaultPathExt, List.mem_cons, List.mem_singleton,
          Finset.mem_insert, Finset.mem_singleton, List.not_mem_nil, or_false]
        constructor
        · rintro (h | h | h | h) <;> simp [h]
        · rintro (h | h | h | h) <;> simp [h]) "ls"⟩

/-! ## Theorems: a command that is the name of a file without extension -/

theorem foldl_two_states {α β : Type} (f : β → α → β) (init found : β) (good : α → Prop)
    (l : List α) (hfound : ∀ a ∈ l, f found a = found)
    (hinit : ∀ a ∈ l, (good a → f init a = found) ∧ (¬ good a → f init a = init)) :
    l.foldl f found = found ∧ ((∃ a ∈ l, good a) → l.foldl f init = found) ∧
      ((¬ ∃ a ∈ l, good a) → l.foldl f init = init) := by
  induction l with
  | nil =>
    refine ⟨rfl, ?_, fun _ => rfl⟩
    rintro ⟨a, ha, _⟩
    cases ha
  | cons a l ih =>
    obtain ⟨ih1, ih2, ih3⟩ := ih (fun b hb => hfound b (List.mem_cons_of_mem _ hb))
      (fun b hb => hinit b (List.mem_cons_of_mem _ hb))
    have ha := hinit a (List.mem_cons_self _ _)
    refine ⟨?_, ?_, ?_⟩
    · rw [List.foldl_cons, hfound a (List.mem_cons_self _ _)]
      exact ih1
    · rintro ⟨b, hb, hgood⟩
      rw [List.foldl_cons]
      by_cases hga : good a
      · rw [ha.1 hga]; exact ih1
      · rw [ha.2 hga]
        rcases List.mem_cons.1 hb with rfl | hb
        · exact (hga hgood).elim
        · exact ih2 ⟨b, hb, hgood⟩
    · intro hno
      rw [List.foldl_cons, ha.2 (fun hga => hno ⟨a, List.mem_cons_self _ _, hga⟩)]
      exact ih3 (fun ⟨b, hb, hgood⟩ => hno ⟨b, List.mem_cons_of_mem _ hb, hgood⟩)

theorem record_init (cmd t : String) :
    record ⟨newResultMap, []⟩ cmd t = ⟨(newResultMap.add cmd t).2, [t]⟩ := by
  simp [record, resultMap.add, newResultMap]

theorem probe_init (fs : FileSystem) (cmd name : String) :
    probe fs false cmd name ⟨newResultMap, []⟩ =
      if isFile fs name = true then record ⟨newResultMap, []⟩ cmd name else ⟨newResultMap, []⟩ := by
  simp [probe, resultMap.hasKey, newResultMap]

theorem probe_found (fs : FileSystem) (cmd name t : String) :
    probe fs false cmd name (record ⟨newResultMap, []⟩ cmd t) =
      record ⟨newResultMap, []⟩ cmd t := by
  unfold probe
  rw [record_hasKey]
  simp

theorem flatCommand_found (fs : FileSystem) (lib : PathLib) (exts : List String)
    (p cmd t : String) :
    flatCommand fs lib exts false p cmd (record ⟨newResultMap, []⟩ cmd t) =
      record ⟨newResultMap, []⟩ cmd t := by
  unfold flatCommand
  rw [record_hasKey]
  simp

theorem flatCommand_init (fs : FileSystem) (lib : PathLib) (exts : List String)
    (p cmd t : String) (hext : (lib.ext cmd).length = 0)
    (honly : ∀ e ∈ exts, isFile fs (lib.join p cmd ++ e) = true → lib.join p cmd ++ e = t) :
    ((∃ e ∈ exts, isFile fs (lib.join p cmd ++ e) = true) →
      flatCommand fs lib exts false p cmd ⟨newResultMap, []⟩ = record ⟨newResultMap, []⟩ cmd t) ∧
    ((¬ ∃ e ∈ exts, isFile fs (lib.join p cmd ++ e) = true) →
      flatCommand fs lib exts false p cmd ⟨newResultMap, []⟩ = ⟨newResultMap, []⟩) := by
  have hfold := foldl_two_states
    (fun st ext => probe fs false cmd (lib.join p cmd ++ ext) st)
    ⟨newResultMap, []⟩ (record ⟨newResultMap, []⟩ cmd t)
    (fun e => isFile fs (lib.join p cmd ++ e) = true) exts
    (fun e _ => probe_found fs cmd _ t)
    (fun e he => by
      constructor
      · intro hg
        simp only [probe_init, hg, if_true]
        rw [honly e he hg]
      · intro hg
        simp only [probe_init, hg, if_false])
  have hunfold : flatCommand fs lib exts false p cmd ⟨newResultMap, []⟩ =
      exts.foldl (fun st ext => probe fs false cmd (lib.join p cmd ++ ext) st)
        ⟨newResultMap, []⟩ := by
    simp [flatCommand, hext, resultMap.hasKey, newResultMap]
  rw [hunfold]
  exact hfold.2

theorem found_len (cmd t : String) :
    (record ⟨newResultMap, []⟩ cmd t).result.len = 1 := by
  have hk : (record ⟨newResultMap, []⟩ cmd t).result.keys = {cmd} := by
    ext k
    rw [← resultMap.hasKey_iff_mem_keys, record_hasKey]
    simp [resultMap.hasKey, newResultMap]
  rw [resultMap.len, hk]
  rfl

/-- The keys of `pathExt`: the four built-in extensions and the lowered entries of
the split value of `PATHEXT`. -/
theorem mem_pathExtOf (lib : PathLib) (value e : String) :
    e ∈ pathExtOf lib value ↔
      e ∈ defaultPathExt ∨ ∃ x ∈ lib.splitList value, lib.toLower x = e := by
  unfold pathExtOf
  generalize defaultPathExt = acc
  induction lib.splitList value generalizing acc with
  | nil => simp
  | cons x l ih =>
    rw [List.foldl_cons, ih]
    simp only [Finset.mem_insert, List.mem_cons, exists_eq_or_imp]
    constructor
    · rintro ((h | h) | h)
      · exact Or.inr (Or.inl h.symm)
      · exact Or.inl h
      · exact Or.inr (Or.inr h)
    · rintro (h | h | h)
      · exact Or.inl (Or.inr h)
      · exact Or.inl (Or.inl h.symm)
      · exact Or.inr h

/-- C13 (counterexample): the variable `PATHEXT` is `.py`, the flat directory `/bin`
(also given as a recursive directory) holds the file `ls` and nothing else: `/bin/ls`
is not probed, and nothing is recorded for the command `ls`. -/
theorem bare_name_not_found :
    isFile lsFs (slashLib.join "/bin" "ls") = true ∧
    (pyOrder "/bin" "ls").toFinset = pathExtOf slashLib ".py" ∧
    (search lsFs slashLib 3 pyOrder (pathExtOf slashLib ".py") false ["ls"] ["/bin"]
      ["/bin"]).result.paths "ls" = ∅ := by
  decide

/-- C13 (amended): when the value of `PATHEXT` has an entry that lowers to the
empty string (for Go an empty entry, as when the variable is unset), the flat
directory `d` holds the non-directory `d/cmd` for the command `cmd` without
extension, and no other probed path is a file, then the search with show-all
disabled for the one command records exactly the path `d/cmd`, and prints exactly
that line. -/
theorem search_finds_bare_name (fs : FileSystem) (lib : PathLib) (fuel : Nat)
    (exts : String → String → List String) (pathextValue : String)
    (paths searchDirs : List String) (d cmd : String)
    (hexts : ∀ p c e, e ∈ exts p c ↔ e ∈ pathExtOf lib pathextValue)
    (hempty : "" ∈ pathExtOf lib pathextValue)
    (hext : (lib.ext cmd).length = 0) (hd : d ∈ paths)
    (hfile : isFile fs (lib.join d cmd) = true)
    (honly : ∀ p ∈ paths, ∀ e ∈ pathExtOf lib pathextValue,
      isFile fs (lib.join p cmd ++ e) = true → lib.join p cmd ++ e = lib.join d cmd) :
    (search fs lib fuel exts (pathExtOf lib pathextValue) false [cmd] paths
        searchDirs).result.paths cmd = {lib.join d cmd} ∧
      (search fs lib fuel exts (pathExtOf lib pathextValue) false [cmd] paths
        searchDirs).stdout = [lib.join d cmd] := by
  have hflat : flatPhase fs lib exts false [cmd] paths ⟨newResultMap, []⟩ =
      record ⟨newResultMap, []⟩ cmd (lib.join d cmd) := by
    unfold flatPhase
    simp only [List.foldl_cons, List.foldl_nil]
    have hfold := foldl_two_states
      (fun st p => flatCommand fs lib (exts p cmd) false p cmd st)
      ⟨newResultMap, []⟩ (record ⟨newResultMap, []⟩ cmd (lib.join d cmd))
      (fun p => ∃ e ∈ exts p cmd, isFile fs (lib.join p cmd ++ e) = true) paths
      (fun p _ => flatCommand_found fs lib _ p cmd _)
      (fun p hp => flatCommand_init fs lib (exts p cmd) p cmd (lib.join d cmd) hext
        (fun e he => honly p hp e ((hexts p cmd e).1 he)))
    refine hfold.2.1 ⟨d, hd, "", (hexts d cmd "").2 hempty, ?_⟩
    rw [String.append_empty]
    exact hfile
  have hsearch : search fs lib fuel exts (pathExtOf lib pathextValue) false [cmd] paths
      searchDirs = record ⟨newResultMap, []⟩ cmd (lib.join d cmd) := by
    unfold search
    simp only [hflat, entersRecursivePhase, found_len]
    simp
  rw [hsearch, record_paths, if_pos rfl, record_init]
  simp [resultMap.paths, newResultMap]

theorem search_finds_bare_name_witness :
    (search lsFs slashLib 3 emptyOrder (pathExtOf slashLib "") false ["ls"] ["/bin"]
        ["/bin"]).result.paths "ls" = {slashLib.join "/bin" "ls"} ∧
      (search lsFs slashLib 3 emptyOrder (pathExtOf slashLib "") false ["ls"] ["/bin"]
        ["/bin"]).stdout = [slashLib.join "/bin" "ls"] :=
  search_finds_bare_name lsFs slashLib 3 emptyOrder "" ["/bin"] ["/bin"] "/bin" "ls"
    (fun _ _ e => by
      have h : pathExtOf slashLib "" = {".com", ".exe", ".bat", ".cmd", ""} := by decide
      rw [h]
      simp only [emptyOrder, List.mem_cons, List.mem_singleton, Finset.mem_insert,
        Finset.mem_singleton, List.not_mem_nil, or_false])
    (by decide) (by decide) (by decide) (by decide)
    (by
      have h : pathExtOf slashLib "" = {".com", ".exe", ".bat", ".cmd", ""} := by decide
      rw [h]
      decide)

/-! ## Theorems: the order of the visits -/

theorem filterMap_of_map_some {α β : Type} (f : α → Option β) (l : List α) (l2 : List β)
    (h : l.map f = l2.map some) : l.filterMap f = l2 := by
  have h1 := congrArg (List.filterMap id) h
  simpa [List.filterMap_map] using h1

theorem fileEntries_isDir (lib : PathLib) (dir : String) (infos : List OsFileInfo)
    (e : FileInfo) (he : e ∈ fileEntries lib dir infos) : e.info.isDir = false := by
  simp only [fileEntries, List.mem_map, List.mem_filter] at he
  obtain ⟨info, ⟨_, hd⟩, rfl⟩ := he
  simpa [child] using hd

theorem Visits.filterMap_perm {fs : FileSystem} {lib : PathLib} {d : Nat}
    {frames : List FileInfo} {calls : List Call} (h : Visits fs lib d frames calls)
    (hb : Bounded fs lib d frames) (hns : ∀ c ∈ calls, c.skipsDir = false) :
    (calls.filterMap Call.entry).Perm (forest fs lib d frames) := by
  have h3 := (h.perm hb hns).filterMap id
  simpa [List.filterMap_map] using h3

/-- In a walk without skipped directories, the visits of a directory and of the
entries beneath it form one block of the sequence of visits, which starts with the
directory. -/
theorem Visits.blocks {fs : FileSystem} {lib : PathLib} {d : Nat} {frames : List FileInfo}
    {calls : List Call} (h : Visits fs lib d frames calls) (hb : Bounded fs lib d frames)
    (hns : ∀ c ∈ calls, c.skipsDir = false) :
    ∀ D ∈ forest fs lib d frames, D.info.isDir = true →
      ∃ pre blk post, calls.filterMap Call.entry = pre ++ (D :: (blk ++ post)) ∧
        blk.Perm (Which.below fs lib d D.Path) := by
  induction h with
  | nil d => intro D hD; simp [forest] at hD
  | skip d fr frames calls _ _ =>
    have := hns _ (List.mem_cons_self _ _)
    simp [Call.skipsDir, StatResult.isDir, (hb fr (List.mem_cons_self _ _)).1] at this
  | enter d fr frames fileCalls inner calls hf _ hvG hvF ih1 ih2 =>
    have hfr := hb fr (List.mem_cons_self _ _)
    have hbG := bounded_dirFrames fs lib d fr.Path hfr.2
    have hbF : Bounded fs lib (d + 1) frames := fun x hx => hb x (List.mem_cons_of_mem _ hx)
    have hnsG : ∀ c ∈ inner, c.skipsDir = false :=
      fun c hc => hns c (List.mem_cons_of_mem _ (by simp [hc]))
    have hnsF : ∀ c ∈ calls, c.skipsDir = false :=
      fun c hc => hns c (List.mem_cons_of_mem _ (by simp [hc]))
    have hL : (({ path := fr.Path, arg := StatResult.ok fr.info, result := none } : Call) ::
          (fileCalls ++ inner ++ calls)).filterMap Call.entry =
        fr :: (fileEntries lib fr.Path (readdir fs fr.Path).1 ++
          inner.filterMap Call.entry ++ calls.filterMap Call.entry) := by
      have h0 : Call.entry { path := fr.Path, arg := StatResult.ok fr.info, result := none } =
          some fr := rfl
      rw [List.filterMap_cons_some h0, List.filterMap_append, List.filterMap_append,
        filterMap_of_map_some Call.entry fileCalls _ hf]
    rw [hL]
    intro D hD hDdir
    have hD2 := (forest_succ_perm fs lib d fr frames).subset hD
    rcases List.mem_cons.1 hD2 with rfl | hD2
    · refine ⟨[], fileEntries lib D.Path (readdir fs D.Path).1 ++ inner.filterMap Call.entry,
        calls.filterMap Call.entry, by simp, ?_⟩
      refine List.Perm.trans ?_ (below_succ_perm fs lib d D.Path).symm
      refine List.Perm.append_left _ ?_
      exact (hvG.filterMap_perm hbG hnsG).trans (forest_perm fs lib d (List.reverse_perm _))
    · rcases List.mem_append.1 hD2 with hD2 | hD2
      · rcases List.mem_append.1 hD2 with hD2 | hD2
        · rw [fileEntries_isDir lib _ _ D hD2] at hDdir
          cases hDdir
        · obtain ⟨pre, blk, post, hsplit, hperm⟩ := ih1 hbG hnsG D hD2 hDdir
          have hfin := (finiteBelow_of_mem_forest fs lib d _ hbG D hD2 hDdir).1
          refine ⟨fr :: (fileEntries lib fr.Path (readdir fs fr.Path).1 ++ pre), blk,
            post ++ calls.filterMap Call.entry, ?_, ?_⟩
          · rw [hsplit]; simp
          · rw [below_succ_eq fs lib d _ hfin]; exact hperm
      · obtain ⟨pre, blk, post, hsplit, hperm⟩ := ih2 hbF hnsF D hD2 hDdir
        refine ⟨fr :: (fileEntries lib fr.Path (readdir fs fr.Path).1 ++
          inner.filterMap Call.entry ++ pre), blk, post, ?_, hperm⟩
        rw [hsplit]; simp

theorem map_entry_eq {calls : List Call} {entries : List FileInfo}
    (h : (calls.map Call.entry).Perm (entries.map some)) :
    calls.map Call.entry = (calls.filterMap Call.entry).map some := by
  have hall : ∀ c ∈ calls, ∃ e, c.entry = some e := by
    intro c hc
    obtain ⟨e, _, he⟩ := List.mem_map.1 (h.subset (List.mem_map_of_mem _ hc))
    exact ⟨e, he.symm⟩
  clear h
  induction calls with
  | nil => rfl
  | cons c calls ih =>
    obtain ⟨e, he⟩ := hall c (List.mem_cons_self _ _)
    rw [List.map_cons, List.filterMap_cons_some he, List.map_cons, he,
      ih (fun x hx => hall x (List.mem_cons_of_mem _ hx))]

/-- C17: on a finite directory tree with a directory root and a visitor that always
returns `nil`, every call of the run is on an entry, and for every directory `D` of
the tree the sequence of visited entries is `pre ++ D :: blk ++ post` where the
block `blk` holds exactly the entries beneath `D`: they are visited after `D`, in
one piece; in particular every entry of `D` is visited after `D`. -/
theorem walk_preorder_blocks {σ : Type} (fs : FileSystem) (lib : PathLib) (d : Nat)
    (root : String) (info : OsFileInfo) (walkFn : WalkFunc σ) (s : σ) (fuel : Nat)
    (hroot : fs.lstat root = StatResult.ok info) (hdir : info.isDir = true)
    (hfin : finiteBelow fs lib d root = true)
    (hcont : ∀ s p arg, (walkFn s p arg).1 = none)
    (hfuel : dirCount fs lib d root ≤ fuel) :
    (walk fs lib fuel root (traced walkFn) (s, [])).2.2.map Call.entry =
        ((walk fs lib fuel root (traced walkFn) (s, [])).2.2.filterMap Call.entry).map some ∧
      ∀ D ∈ tree fs lib d root, D.info.isDir = true →
        ∃ pre blk post,
          (walk fs lib fuel root (traced walkFn) (s, [])).2.2.filterMap Call.entry =
            pre ++ (D :: (blk ++ post)) ∧
          blk.Perm (below fs lib d D.Path) ∧
          ∀ i ∈ (readdir fs D.Path).1, child lib D.Path i ∈ blk := by
  have hna : NeverAborts walkFn := fun s p i => Or.inl (hcont s p _)
  obtain ⟨_, h2⟩ := walk_visits fs lib d root info walkFn s fuel hroot hdir hfin hna hfuel
  have hres := walk_log_all fs lib walkFn (fun c => c.result = none)
    (fun s p arg => hcont s p arg) fuel root s
  have hns : ∀ c ∈ (walk fs lib fuel root (traced walkFn) (s, [])).2.2, c.skipsDir = false :=
    fun c hc => by simp [Call.skipsDir, hres c hc]
  have hb := bounded_root fs lib d root info hdir hfin
  refine ⟨map_entry_eq (h2.perm hb hns), ?_⟩
  intro D hD hDdir
  rw [tree_eq_forest fs lib d root info hroot hdir] at hD
  obtain ⟨pre, blk, post, hsplit, hperm⟩ := h2.blocks hb hns D hD hDdir
  refine ⟨pre, blk, post, hsplit, hperm, ?_⟩
  intro i hi
  refine hperm.symm.subset ?_
  have hfinD := (finiteBelow_of_mem_forest fs lib d _ hb D hD hDdir).1
  cases d with
  | zero => simp [finiteBelow] at hfinD
  | succ d => exact (mem_below_succ fs lib d D.Path _).2 ⟨i, hi, Or.inl rfl⟩

theorem walk_preorder_blocks_witness :
    (walk demoFs slashLib 4 "/r" (traced continueFn) ((), [])).2.2.filterMap Call.entry =
      [⟨"/r", ⟨"r", true⟩⟩, ⟨"/r/a", ⟨"a", false⟩⟩, ⟨"/r/e", ⟨"e", true⟩⟩,
        ⟨"/r/e/c", ⟨"c", false⟩⟩, ⟨"/r/d", ⟨"d", true⟩⟩, ⟨"/r/d/b", ⟨"b", false⟩⟩,
        ⟨"/r/d/dd", ⟨"dd", true⟩⟩] ∧
    ∃ pre blk post,
      (walk demoFs slashLib 4 "/r" (traced continueFn) ((), [])).2.2.filterMap Call.entry =
        pre ++ ((⟨"/r/d", ⟨"d", true⟩⟩ : FileInfo) :: (blk ++ post)) ∧
      blk.Perm (below demoFs slashLib 3 "/r/d") ∧
      ∀ i ∈ (readdir demoFs "/r/d").1, child slashLib "/r/d" i ∈ blk :=
  ⟨by decide,
    (walk_preorder_blocks demoFs slashLib 3 "/r" ⟨"r", true⟩ continueFn () 4
      (by decide) (by decide) (by decide) (fun _ _ _ => rfl) (by decide)).2
      ⟨"/r/d", ⟨"d", true⟩⟩ (by decide) (by decide)⟩

end Which
